import Mathlib

/-
Verification of the game-theory-routing simulation core.

The Rust source is shallowly embedded in Lean 4.  Conventions used
throughout this development:

* `f32`/`f64` values are idealized as rational numbers (`ℚ`); the code
  performs only field operations and order comparisons on them, which `ℚ`
  models exactly.  Square roots appear in the source only on the left of
  comparisons (`Vector2D::magnitude() < c`, and comparisons between two
  magnitudes); these are embedded by the equivalent exact comparisons on
  squares: for `s, t ≥ 0`, `√s < c ↔ 0 < c ∧ s < c²` and `√s < √t ↔ s < t`.
* `Vec<T>` becomes `List T`; `Vec::push` appends on the right.
* the recursion of `QuadTree::insert` is not structural (after a split the
  insertion descends into freshly created children), so it is embedded with
  an explicit recursion-depth budget (`fuel`); `none` means the budget was
  exhausted, i.e. the source recursion would run deeper than `fuel`.
-/

/-
Batteries marks `Rat.add`, `Rat.mul`, `Rat.sub` and `Rat.inv` irreducible,
which blocks `decide`/`rfl` evaluation of concrete rational arithmetic;
they are definitionally fine for the kernel, so they are restored to the
default transparency for this file.
-/
attribute [local semireducible] Rat.add Rat.mul Rat.sub Rat.inv

/-- Point with rational coordinates; embeds `quadtree::types::Point<f64>`
and positions from `math::Vector2D`. -/
structure Pt where
  x : ℚ
  y : ℚ
deriving DecidableEq, Repr

/-- Axis-aligned box, `quadtree::box2d::Box2d`.  The screen's y axis grows
downward in the renderer, but the source stores `top_left` with the larger
y coordinate and `btm_right` with the smaller one. -/
structure Box2d where
  topLeft : Pt
  btmRight : Pt
deriving DecidableEq, Repr

/-- Embeds `Box2d::contains`. -/
def Box2d.contains (b : Box2d) (p : Pt) : Bool :=
  (decide (b.topLeft.x ≤ p.x) && decide (p.x ≤ b.btmRight.x))
    && (decide (b.btmRight.y ≤ p.y) && decide (p.y ≤ b.topLeft.y))

/-- Embeds `Box2d::intersects_box`. -/
def Box2d.intersectsBox (b other : Box2d) : Bool :=
  decide (other.topLeft.x ≤ b.btmRight.x)
    && decide (b.topLeft.x ≤ other.btmRight.x)
    && decide (b.btmRight.y ≤ other.topLeft.y)
    && decide (other.btmRight.y ≤ b.topLeft.y)

/-- Embeds `Box2d::subdivide`; the source returns the vector
`[north-west, north-east, south-east, south-west]`, modelled here as a
4-tuple in the same order. -/
def Box2d.subdivide (b : Box2d) : Box2d × Box2d × Box2d × Box2d :=
  let xMid : ℚ := (b.btmRight.x + b.topLeft.x) / 2
  let yMid : ℚ := (b.btmRight.y + b.topLeft.y) / 2
  (⟨b.topLeft, ⟨xMid, yMid⟩⟩,
   ⟨⟨xMid, b.topLeft.y⟩, ⟨b.btmRight.x, yMid⟩⟩,
   ⟨⟨xMid, yMid⟩, b.btmRight⟩,
   ⟨⟨b.topLeft.x, yMid⟩, ⟨xMid, b.btmRight.y⟩⟩)

/-- A box is proper when its corners are ordered; every box ever built by
the simulation (the root and all subdivision results) is proper. -/
def Box2d.proper (b : Box2d) : Bool :=
  decide (b.topLeft.x ≤ b.btmRight.x) && decide (b.btmRight.y ≤ b.topLeft.y)

/-- Embeds `quadtree::quadtree::QuadTree<V>`.  The source stores four
`Option<Box<QuadTree>>` children that are all `None` or all `Some`
(`subdivide` sets all four); `leaf` is the all-`None` state and `node` the
subdivided state. -/
inductive QuadTree (V : Type) where
  | leaf (capacity : ℕ) (boundary : Box2d) (entries : List (Pt × V))
  | node (capacity : ℕ) (boundary : Box2d) (entries : List (Pt × V))
      (nw ne sw se : QuadTree V)
deriving DecidableEq

/-- Boundary of the root node of a (sub)tree. -/
def QuadTree.boundary {V : Type} : QuadTree V → Box2d
  | .leaf _ b _ => b
  | .node _ b _ _ _ _ _ => b

/-- All entries stored anywhere in the tree, parent entries first, children
in the order north-west, north-east, south-west, south-east. -/
def QuadTree.toEntries {V : Type} : QuadTree V → List (Pt × V)
  | .leaf _ _ es => es
  | .node _ _ es nw ne sw se =>
      es ++ nw.toEntries ++ ne.toEntries ++ sw.toEntries ++ se.toEntries

/-- Embeds `QuadTree::subdivide` on a leaf: attach four empty children
whose boxes come from `Box2d::subdivide`'s vector in the order
north-west, north-east, south-east, south-west; a node is unchanged (the
source subdivides only when the children are `None`). -/
def QuadTree.subdivideTree {V : Type} : QuadTree V → QuadTree V
  | .leaf cap bnd es =>
      .node cap bnd es
        (.leaf cap bnd.subdivide.1 []) (.leaf cap bnd.subdivide.2.1 [])
        (.leaf cap bnd.subdivide.2.2.2 []) (.leaf cap bnd.subdivide.2.2.1 [])
  | t => t

/-- Embeds `QuadTree::insert`.  `fuel` bounds the recursion depth; `none`
means the source recursion would exceed it.  A full leaf subdivides first;
delegation then tries the children north-west, north-east, south-west,
south-east in the source's order, returning on the first success.  A
failed child insertion keeps the possibly mutated child (the source
mutates through `&mut`), and `none` (out of fuel) propagates. -/
def QuadTree.insert {V : Type} : ℕ → QuadTree V → Pt → V →
    Option (QuadTree V × Bool)
  | 0, _, _, _ => none
  | fuel + 1, t, p, v =>
    if t.boundary.contains p = false then some (t, false)
    else
      match t with
      | .leaf cap bnd es =>
        if es.length < cap then some (.leaf cap bnd (es ++ [(p, v)]), true)
        else
          match (QuadTree.leaf cap bnd es).subdivideTree with
          | .leaf cap2 bnd2 es2 => some (.leaf cap2 bnd2 es2, false)
          | .node cap2 bnd2 es2 nw ne sw se =>
            match QuadTree.insert fuel nw p v with
            | none => none
            | some (nw2, true) => some (.node cap2 bnd2 es2 nw2 ne sw se, true)
            | some (nw2, false) =>
              match QuadTree.insert fuel ne p v with
              | none => none
              | some (ne2, true) =>
                  some (.node cap2 bnd2 es2 nw2 ne2 sw se, true)
              | some (ne2, false) =>
                match QuadTree.insert fuel sw p v with
                | none => none
                | some (sw2, true) =>
                    some (.node cap2 bnd2 es2 nw2 ne2 sw2 se, true)
                | some (sw2, false) =>
                  match QuadTree.insert fuel se p v with
                  | none => none
                  | some (se2, true) =>
                      some (.node cap2 bnd2 es2 nw2 ne2 sw2 se2, true)
                  | some (se2, false) =>
                      some (.node cap2 bnd2 es2 nw2 ne2 sw2 se2, false)
      | .node cap2 bnd2 es2 nw ne sw se =>
        match QuadTree.insert fuel nw p v with
        | none => none
        | some (nw2, true) => some (.node cap2 bnd2 es2 nw2 ne sw se, true)
        | some (nw2, false) =>
          match QuadTree.insert fuel ne p v with
          | none => none
          | some (ne2, true) => some (.node cap2 bnd2 es2 nw2 ne2 sw se, true)
          | some (ne2, false) =>
            match QuadTree.insert fuel sw p v with
            | none => none
            | some (sw2, true) =>
                some (.node cap2 bnd2 es2 nw2 ne2 sw2 se, true)
            | some (sw2, false) =>
              match QuadTree.insert fuel se p v with
              | none => none
              | some (se2, true) =>
                  some (.node cap2 bnd2 es2 nw2 ne2 sw2 se2, true)
              | some (se2, false) =>
                  some (.node cap2 bnd2 es2 nw2 ne2 sw2 se2, false)

/-- Embeds `QuadTree::query_range`: prune when the node's own boundary does
not intersect the range, report own entries inside the range, then recurse
into the children in the source's order. -/
def QuadTree.queryRange {V : Type} : QuadTree V → Box2d → List (Pt × V)
  | .leaf _ bnd es, range =>
      if bnd.intersectsBox range = false then []
      else es.filter (fun e => range.contains e.1)
  | .node _ bnd es nw ne sw se, range =>
      if bnd.intersectsBox range = false then []
      else es.filter (fun e => range.contains e.1)
        ++ nw.queryRange range ++ ne.queryRange range
        ++ sw.queryRange range ++ se.queryRange range

/-- Structural well-formedness maintained by the simulation: boxes are
proper, every entry of a node lies inside that node's boundary, and the
children's boundaries are exactly the subdivision of the parent's. -/
def QuadTree.wf {V : Type} : QuadTree V → Bool
  | .leaf _ bnd es => bnd.proper && es.all (fun e => bnd.contains e.1)
  | .node _ bnd es nw ne sw se =>
      bnd.proper && es.all (fun e => bnd.contains e.1)
        && decide (nw.boundary = bnd.subdivide.1)
        && decide (ne.boundary = bnd.subdivide.2.1)
        && decide (se.boundary = bnd.subdivide.2.2.1)
        && decide (sw.boundary = bnd.subdivide.2.2.2)
        && nw.wf && ne.wf && sw.wf && se.wf

/-- Sequentially insert a list of entries, requiring every insertion to
succeed (return `true`); mirrors the comms-tick loop that inserts every
satellite position into the freshly built tree. -/
def QuadTree.insertAll {V : Type} (fuel : ℕ) : List (Pt × V) → QuadTree V →
    Option (QuadTree V)
  | [], t => some t
  | e :: rest, t =>
    match QuadTree.insert fuel t e.1 e.2 with
    | some (t2, true) => QuadTree.insertAll fuel rest t2
    | _ => none

/-
Energy game (`satellite.rs`, `SatelliteEnergy`).
-/

/-- Configuration values consumed by the core (`settings.rs`); only the
fields the clustering and energy game read are modelled.  `max_energy` is
read by `SatelliteEnergy` but absent from the shipped `Settings` struct;
it is kept here as the opaque configuration value the spec describes. -/
structure Settings where
  energyThreshold : ℚ
  clusterDistance : ℚ
  commsCost : ℚ
  energyGain : ℚ
  maxEnergy : ℚ
deriving DecidableEq, Repr

/-- Embeds `SatelliteEnergy` (the `id` field is used only for logging and
is dropped). -/
structure SatelliteEnergy where
  inGame : Bool
  cost : ℚ
  gain : ℚ
  energy : ℚ
  maxEnergy : ℚ
  probEntering : ℚ
deriving DecidableEq, Repr

/-- Embeds `SatelliteEnergy::new_random`; `r` is the value drawn by
`rng.gen::<f32>()`, which lies in `[0, 1)`. -/
def SatelliteEnergy.newRandom (r : ℚ) (s : Settings) : SatelliteEnergy :=
  { inGame := false
    cost := s.commsCost
    gain := s.energyGain
    energy := r * 100
    maxEnergy := s.maxEnergy
    probEntering := 100 }

/-- Abstraction of the `f32` value produced by the Nash-probability formula
`1 - (1 - (e-c)/(e+g)).powf(1/(n-1))`: either a real number or NaN (the
formula divides and takes a fractional power, which can produce NaN in
floating point). -/
inductive FloatVal where
  | nan
  | val (q : ℚ)
deriving DecidableEq, Repr

/-- The guard `prob_entering < 0.0 || prob_entering > 1.0 ||
prob_entering.is_nan()` from `SatelliteEnergy::update_game` (NaN compares
false, so the order of the three tests does not matter). -/
def FloatVal.isInvalidProb : FloatVal → Bool
  | .nan => true
  | .val q => decide (q < 0) || decide (1 < q)

/-- Embeds `SatelliteEnergy::update_game`.  `clusterSize` is
`cluster.size()`; `probComputed` is the Nash-formula result (abstracted,
see `FloatVal`); `draw` is the Bernoulli sample `rng.gen_bool(p)`. -/
def SatelliteEnergy.updateGame (st : SatelliteEnergy) (clusterSize : ℕ)
    (probComputed : FloatVal) (draw : ℚ → Bool) : SatelliteEnergy :=
  if st.energy < st.cost ∨ st.energy < 0 then { st with inGame := false }
  else if clusterSize < 2 then
    if st.cost < st.energy then { st with inGame := true }
    else { st with inGame := false }
  else
    match probComputed with
    | .nan => { st with inGame := false }
    | .val p =>
      if p < 0 ∨ 1 < p then { st with inGame := false }
      else { st with probEntering := p, inGame := draw p }

/-- Embeds `SatelliteEnergy::update` (the Phase B settlement):
participants pay `cost` (clamped below at 0); non-participants receive
`gain` (clamped above at `max_energy`) when at least one neighbor is in
the game, and are unchanged otherwise. -/
def SatelliteEnergy.update (st : SatelliteEnergy)
    (neighbors : List SatelliteEnergy) : SatelliteEnergy :=
  if st.inGame then
    let e := st.energy - st.cost
    { st with energy := if e < 0 then 0 else e }
  else
    let neighborsInGame :=
      neighbors.foldl (fun acc n => acc + (if n.inGame then 1 else 0)) 0
    if neighborsInGame = 0 then st
    else
      let e := st.energy + st.gain
      { st with energy := if st.maxEnergy < e then st.maxEnergy else e }

/-- The energy-bounds invariant `0 ≤ energy ≤ max_energy`. -/
def energyInv (st : SatelliteEnergy) : Prop :=
  0 ≤ st.energy ∧ st.energy ≤ st.maxEnergy

/-
Packet relay (`packet.rs`, `SatelliteComms` in `satellite.rs`).
-/

/-- Embeds `packet::Hop` (`from` is a Lean keyword, hence `fromId`/`toId`;
`time` is the u64 timestamp). -/
structure Hop where
  fromId : ℕ
  toId : ℕ
  time : ℕ
deriving DecidableEq, Repr

/-- Embeds `packet::Packet`. -/
structure Packet where
  id : ℕ
  source : ℕ
  ttl : ℕ
  path : List Hop
deriving DecidableEq, Repr

/-- Embeds `Packet::add_hop`: append one hop from the previous path tail
(or the original source when the path is empty) to `node`. -/
def Packet.addHop (p : Packet) (node : ℕ) (time : ℕ) : Packet :=
  let last := (p.path.getLast?.map (fun h => h.toId)).getD p.source
  { p with path := p.path ++ [⟨last, node, time⟩] }

/-- Modelled from the spec: `Packet::decrement_ttl` is called by
`SatelliteComms::add_packet` but its definition is missing from the
sources (no `packet.rs` ships with the `simulation` crate and the other
crate's `packet.rs` lacks it); the spec says "decrement ttl". -/
def Packet.decrementTtl (p : Packet) : Packet :=
  { p with ttl := p.ttl - 1 }

/-- Modelled from the spec: `Packet::in_path` is called by
`SatelliteComms::add_packet` but its definition is missing from the
sources; the spec rejects a packet when "the receiving agent's id already
appears in `packet.path`", i.e. occurs in some hop of the path. -/
def Packet.inPath (p : Packet) (i : ℕ) : Bool :=
  p.path.any (fun h => decide (h.fromId = i) || decide (h.toId = i))

/-- Embeds `PacketSource::next` (sequence counter pre-incremented, fresh
packet with ttl 10 and empty path): returns the advanced counter together
with the packet `Packet::new(sequence, id, 10)`. -/
def PacketSource.next (id sequenceNumber : ℕ) : ℕ × Packet :=
  (sequenceNumber + 1, ⟨sequenceNumber + 1, id, 10, []⟩)

/-- Embeds `SatelliteComms::add_packet` acting on the receiving agent's
queue: reject silently on a path loop or exhausted ttl, else decrement the
ttl, append the hop to the receiver and enqueue. -/
def SatelliteComms.addPacket (selfId : ℕ) (packets : List Packet)
    (p : Packet) (timestamp : ℕ) : List Packet :=
  if p.inPath selfId then packets
  else if p.ttl = 0 then packets
  else packets ++ [(p.decrementTtl).addHop selfId timestamp]

/-- The sequence of agents a packet has visited: its source followed by
the receivers of its hops. -/
def Packet.visited (p : Packet) : List ℕ :=
  p.source :: p.path.map (fun h => h.toId)

/-- The agent currently holding the packet's tail: the last hop's receiver,
or the source for a fresh packet. -/
def Packet.lastNode (p : Packet) : ℕ :=
  (p.path.getLast?.map (fun h => h.toId)).getD p.source

/-- Path chaining: the hop list forms a chain starting at `s`, each hop
leaving from the previous hop's receiver. -/
def chainedFrom : ℕ → List Hop → Bool
  | _, [] => true
  | s, h :: rest => decide (h.fromId = s) && chainedFrom h.toId rest

/-- Packets reachable by the relay protocol: fresh packets from
`PacketSource::next`, and packets accepted by `SatelliteComms::add_packet`
of some receiver.  The receiver of a hop differs from the sender holding
the packet (`SatelliteComms::update` skips `self`), which for a fresh
packet means the receiver differs from the source. -/
inductive PacketReach : Packet → Prop where
  | fresh (id src : ℕ) : PacketReach ⟨id, src, 10, []⟩
  | hop (p : Packet) (r ts : ℕ) :
      PacketReach p →
      p.inPath r = false →
      p.ttl ≠ 0 →
      r ≠ p.lastNode →
      PacketReach ((p.decrementTtl).addHop r ts)

/-
Cluster formation (`simulation.rs`, `Msg::CommsTick`; `cluster.rs`).

The co-indexed agent facets (`entity_props`, `entity_positions`,
`entity_energy`) are modelled as functions from the stable agent id
(`0 ≤ id < n`) to the facet data the tick reads: position, energy and hue.
-/

/-- Squared Euclidean distance; the source computes
`(position - head_pos).magnitude()` and only compares it, so comparisons
are embedded on squares (see the header note). -/
def sqDist (p q : Pt) : ℚ :=
  (p.x - q.x) * (p.x - q.x) + (p.y - q.y) * (p.y - q.y)

/-- Exact embedding of `magnitude() < c`, i.e. `√s < c` for `s ≥ 0`. -/
def sqrtLt (s c : ℚ) : Bool :=
  decide (0 < c) && decide (s < c * c)

/-- The screen size constant `SIZE = (1200, 1200)` from `simulation.rs`. -/
def SIZE : Pt := ⟨1200, 1200⟩

/-- Squared version of `SatellitePosition::distance_from_earth`: distance
from the screen center `SIZE / 2`. -/
def sqDistFromEarth (p : Pt) : ℚ :=
  sqDist p ⟨SIZE.x / 2, SIZE.y / 2⟩

/-- Embeds the comms-tick candidate filter: every agent id (in ascending
order) whose `energy.energy() > settings.energy_threshold`. -/
def clusterHeadCandidates (n : ℕ) (energy : ℕ → ℚ) (thr : ℚ) : List ℕ :=
  (List.range n).filter (fun i => decide (thr < energy i))

/-- One step of the head-consolidation loop: accept the candidate iff no
already accepted head lies within `cluster_distance` of it (the source
sets `is_cluster_head = false` and breaks on the first such head). -/
def electStep (pos : ℕ → Pt) (cd : ℚ) (heads : List ℕ) (i : ℕ) : List ℕ :=
  if heads.all (fun h => !sqrtLt (sqDist (pos i) (pos h)) cd) then heads ++ [i]
  else heads

/-- Embeds the comms-tick head election: greedy consolidation over the
candidates in ascending id order. -/
def electHeads (n : ℕ) (pos : ℕ → Pt) (energy : ℕ → ℚ) (s : Settings) :
    List ℕ :=
  (clusterHeadCandidates n energy s.energyThreshold).foldl
    (electStep pos s.clusterDistance) []

/-- Embeds the membership loop body for one non-head agent: start with
`nearest_distance = distance_from_earth` and no head, then scan the heads
in election order and keep the first strictly closer head each time
(squared comparison of the two magnitudes, which is exact). -/
def assignHead (pos : ℕ → Pt) (heads : List ℕ) (i : ℕ) : Option ℕ :=
  (heads.foldl
    (fun acc h =>
      if sqDist (pos i) (pos h) < acc.1 then (sqDist (pos i) (pos h), some h)
      else acc)
    (sqDistFromEarth (pos i), none)).2

/-- Embeds `cluster::Cluster`: head id, ordered member list, size and the
cluster hue.  `Cluster::new` puts the head itself into the member list and
sets `size = 1`. -/
structure Cluster where
  head : ℕ
  members : List ℕ
  size : ℕ
  color : ℚ
deriving DecidableEq, Repr

/-- Embeds `Cluster::add_member`. -/
def Cluster.addMember (c : Cluster) (node : ℕ) : Cluster :=
  { c with members := c.members ++ [node], size := c.size + 1 }

/-- Embeds `Cluster::new(h)` followed by the comms-tick hue seeding: the
random hue `Cluster::new` draws is immediately overwritten with the
previous tick's cluster color for the same head when one exists, else with
the head's own hue, so the seeded color is modelled directly. -/
def mkCluster (prevColor : ℕ → Option ℚ) (hue : ℕ → ℚ) (h : ℕ) : Cluster :=
  { head := h
    members := [h]
    size := 1
    color := match prevColor h with
      | some c => c
      | none => hue h }

/-- The seeded color of a head's fresh cluster (continuity with the
previous tick's `ClusterMap`). -/
def seedColor (prevColor : ℕ → Option ℚ) (hue : ℕ → ℚ) (h : ℕ) : ℚ :=
  match prevColor h with
  | some c => c
  | none => hue h

/-- Displayed hues after the seeding loop: the head's `entity_props` hue is
set to the previous cluster color when one exists (otherwise it already
equals the seed, which is the head's own hue); non-heads keep theirs. -/
def hueAfterSeeding (heads : List ℕ) (prevColor : ℕ → Option ℚ)
    (hue : ℕ → ℚ) (i : ℕ) : ℚ :=
  if heads.contains i then seedColor prevColor hue i else hue i

/-- Appends `i` to the member list of the cluster with head `h`; embeds
`clusters.get_mut(head).unwrap().add_member(id)` on the `ClusterMap`
(modelled as the list of clusters keyed by their head id). -/
def addMemberTo (cs : List Cluster) (h i : ℕ) : List Cluster :=
  cs.map (fun c => if c.head = h then c.addMember i else c)

/-- One step of the membership loop over all agents in ascending id order:
heads are skipped, every other agent is attached to its `assignHead`
target when one exists. -/
def assignStep (pos : ℕ → Pt) (heads : List ℕ) (cs : List Cluster) (i : ℕ) :
    List Cluster :=
  if heads.contains i then cs
  else
    match assignHead pos heads i with
    | some h => addMemberTo cs h i
    | none => cs

/-- Embeds the comms-tick cluster construction: one fresh (seeded) cluster
per elected head, then the membership loop over all agents. -/
def assignMembers (n : ℕ) (pos : ℕ → Pt) (heads : List ℕ)
    (prevColor : ℕ → Option ℚ) (hue : ℕ → ℚ) : List Cluster :=
  (List.range n).foldl (assignStep pos heads)
    (heads.map (mkCluster prevColor hue))

/-- Truncation toward zero, the rounding Rust's float `%` uses. -/
def ratTrunc (q : ℚ) : ℤ :=
  if q < 0 then -(⌊-q⌋) else ⌊q⌋

/-- Rust's `%` on floats: `x - y * trunc(x / y)`. -/
def fmod (x y : ℚ) : ℚ :=
  x - y * (ratTrunc (x / y) : ℚ)

/-- Embeds the hue-blending loop body for one cluster with `size ≥ 2`:
average the hues of the member list (which contains the head), blend 50/50
with the cluster color, reduce modulo 360 and write the result to the
cluster and to every member's displayed hue. -/
def blendFold : List Cluster → (ℕ → ℚ) → List Cluster × (ℕ → ℚ)
  | [], hues => ([], hues)
  | c :: rest, hues =>
    if c.size < 2 then
      let r := blendFold rest hues
      (c :: r.1, r.2)
    else
      let memberColor := (c.members.map hues).sum / (c.members.length : ℚ)
      let color := fmod ((c.color + memberColor) / 2) 360
      let hues2 := fun i => if c.members.contains i then color else hues i
      let r := blendFold rest hues2
      ({ c with color := color } :: r.1, r.2)

/-- The whole cluster-formation part of one comms tick: head election,
cluster creation with hue seeding, membership assignment, hue blending.
Returns the new cluster list (the `ClusterMap` values in construction
order) and the final displayed hue of every agent.  The source iterates
the blending loop in `HashMap` value order; the fold here uses head
election order (membership lists of distinct clusters are disjoint, so
the result does not depend on the iteration order). -/
def commsTickClusters (n : ℕ) (pos : ℕ → Pt) (energy : ℕ → ℚ)
    (hue : ℕ → ℚ) (s : Settings) (prevColor : ℕ → Option ℚ) :
    List Cluster × (ℕ → ℚ) :=
  let heads := electHeads n pos energy s
  let cs := assignMembers n pos heads prevColor hue
  blendFold cs (hueAfterSeeding heads prevColor hue)

/-- Member list of the cluster with head `h` (first match), empty when no
such cluster exists. -/
def clMembers (cs : List Cluster) (h : ℕ) : List ℕ :=
  ((cs.find? (fun c => c.head == h)).map Cluster.members).getD []

/-- The body of the membership loop over the head list (named form of the
fold step in `assignHead`). -/
def nearestStep (pos : ℕ → Pt) (i : ℕ) (acc : ℚ × Option ℕ) (h : ℕ) :
    ℚ × Option ℕ :=
  if sqDist (pos i) (pos h) < acc.1 then (sqDist (pos i) (pos h), some h)
  else acc

/-- First cluster with the given head id in a cluster list (the
`ClusterMap` lookup keyed by head id). -/
def clFind (cs : List Cluster) (h : ℕ) : Option Cluster :=
  cs.find? (fun c => c.head == h)

/-- The spec's election scenario: three agents on a horizontal line at
x-offsets 0, 50 and 200 from the first candidate, all above the energy
threshold. -/
def posW8 : ℕ → Pt := fun i =>
  if i = 0 then ⟨600, 600⟩ else if i = 1 then ⟨650, 600⟩ else ⟨800, 600⟩

/-- Uniform energies above the threshold for the election scenario. -/
def energyW8 : ℕ → ℚ := fun _ => 60

/-- The default settings of `settings.rs` (with `max_energy = 100`). -/
def settingsW : Settings := ⟨50, 100, 2, 3, 100⟩

/-- Two agents: agent 0 sits at the screen center (distance 0 from
Earth), agent 1 is a head candidate 200 away. -/
def posW2 : ℕ → Pt := fun i => if i = 0 then ⟨600, 600⟩ else ⟨800, 600⟩

/-- Energies for the two-agent scenario: agent 0 below, agent 1 above the
threshold. -/
def energyW2 : ℕ → ℚ := fun i => if i = 0 then 10 else 60

/-- Hues for the two-agent scenario. -/
def hueW2 : ℕ → ℚ := fun _ => 0

/-- Three-agent scenario: head candidate 0 at (500, 600), followers 1 and
2 nearby (both strictly closer to the head than to the screen center). -/
def posW9 : ℕ → Pt := fun i =>
  if i = 0 then ⟨500, 600⟩ else if i = 1 then ⟨520, 600⟩ else ⟨480, 600⟩

/-- Energies for the three-agent scenario: only agent 0 is above the
threshold. -/
def energyW9 : ℕ → ℚ := fun i => if i = 0 then 60 else if i = 1 then 10 else 20

/-- Hues for the three-agent scenario. -/
def hueW9 : ℕ → ℚ := fun i => if i = 0 then 100 else if i = 1 then 200 else 300

/-
Claims about the energy game (C1, C5).
-/

/-- Claim C1, counterexample: the claim is false as stated because
`SatelliteEnergy::new_random` draws `energy = r * 100` without consulting
`max_energy`; with `max_energy = 50` (all other settings at their
defaults) and the rng draw `r = 9/10`, the fresh agent has `energy = 90 >
max_energy`, violating `0 ≤ energy ≤ max_energy` already at creation. -/
theorem c1_energy_bounds_counterexample :
    ¬ energyInv (SatelliteEnergy.newRandom (9/10) ⟨50, 100, 2, 3, 50⟩) := by
  intro h
  have h2 := h.2
  simp only [SatelliteEnergy.newRandom] at h2
  norm_num at h2

/-- Claim C1, amended: the energy invariant `0 ≤ energy ≤ max_energy`
holds at creation provided `max_energy ≥ 100` (the rng draw lies in
`[0, 1)`, so `energy = r·100 ∈ [0, 100)`), and `SatelliteEnergy::update`
preserves it for every settlement step provided `comms_cost ≥ 0` and
`energy_gain ≥ 0` (subtraction of the cost is clamped below at 0,
addition of the gain is clamped above at `max_energy`). -/
theorem c1_energy_bounds_amended :
    (∀ (r : ℚ) (s : Settings), 0 ≤ r → r < 1 → 100 ≤ s.maxEnergy →
      energyInv (SatelliteEnergy.newRandom r s)) ∧
    (∀ (st : SatelliteEnergy) (neighbors : List SatelliteEnergy),
      energyInv st → 0 ≤ st.cost → 0 ≤ st.gain →
      energyInv (st.update neighbors)) := by
  constructor
  · intro r s hr hr1 hm
    constructor
    · show (0:ℚ) ≤ r * 100
      exact mul_nonneg hr (by norm_num)
    · simp only [SatelliteEnergy.newRandom]
      have : r * 100 < 1 * 100 :=
        mul_lt_mul_of_pos_right hr1 (by norm_num)
      linarith
  · intro st neighbors hinv hc hg
    obtain ⟨h0, hM⟩ := hinv
    simp only [SatelliteEnergy.update, energyInv]
    split_ifs with hGame hz hlow hhigh
    · constructor <;> simp <;> linarith
    · constructor <;> simp <;> linarith
    · exact ⟨h0, hM⟩
    · constructor <;> simp <;> linarith
    · constructor <;> simp <;> linarith

/-- Claim C1, witness for the amended theorem, at the default settings
with `max_energy = 100`, rng draw `1/2` and an empty neighbor list. -/
theorem c1_energy_bounds_amended_witness :
    energyInv (SatelliteEnergy.newRandom (1/2) ⟨50, 100, 2, 3, 100⟩) ∧
    energyInv ((SatelliteEnergy.newRandom (1/2) ⟨50, 100, 2, 3, 100⟩).update []) :=
  ⟨c1_energy_bounds_amended.1 (1/2) ⟨50, 100, 2, 3, 100⟩ (by norm_num)
      (by norm_num) (by norm_num),
   c1_energy_bounds_amended.2 _ []
      (c1_energy_bounds_amended.1 (1/2) ⟨50, 100, 2, 3, 100⟩ (by norm_num)
        (by norm_num) (by norm_num))
      (by decide) (by decide)⟩

/-- Claim C5: after `update_game`, (1) an agent with `energy < cost` has
`in_game = false` regardless of cluster size, the Bernoulli draw and the
computed probability; (2) an agent in a cluster of size `< 2` with
`energy > cost` (energies are nonnegative by the energy invariant) has
`in_game = true`; (3) in a cluster of size `≥ 2`, whenever the computed
entering probability is NaN or outside `[0, 1]`, `in_game` is set to
false. -/
theorem c5_update_game_decision :
    (∀ (st : SatelliteEnergy) (n : ℕ) (p : FloatVal) (draw : ℚ → Bool),
      st.energy < st.cost → (st.updateGame n p draw).inGame = false) ∧
    (∀ (st : SatelliteEnergy) (n : ℕ) (p : FloatVal) (draw : ℚ → Bool),
      n < 2 → 0 ≤ st.energy → st.cost < st.energy →
      (st.updateGame n p draw).inGame = true) ∧
    (∀ (st : SatelliteEnergy) (n : ℕ) (p : FloatVal) (draw : ℚ → Bool),
      2 ≤ n → p.isInvalidProb = true → (st.updateGame n p draw).inGame = false) := by
  refine ⟨?_, ?_, ?_⟩
  · intro st n p draw hlt
    simp [SatelliteEnergy.updateGame, hlt]
  · intro st n p draw hn h0 hgt
    have hne : ¬ (st.energy < st.cost ∨ st.energy < 0) := by
      push_neg
      exact ⟨le_of_lt hgt, h0⟩
    simp [SatelliteEnergy.updateGame, hne, hn, hgt]
  · intro st n p draw hn hbad
    have hn2 : ¬ n < 2 := by omega
    simp only [SatelliteEnergy.updateGame]
    split_ifs with h1
    · simp
    · cases p with
      | nan => simp [hn2]
      | val q =>
        simp only [FloatVal.isInvalidProb, Bool.or_eq_true, decide_eq_true_eq] at hbad
        have : q < 0 ∨ 1 < q := hbad
        simp [hn2, this]

/-- Claim C5, witness: the spec's concrete scenario (cluster of size 1,
`energy = 10`, `cost = 2`) enters the game; an agent with `energy = 1 <
cost = 2` stays out; an invalid (NaN) probability in a cluster of size 3
forces `in_game = false`. -/
theorem c5_update_game_decision_witness :
    ((⟨false, 2, 3, 10, 100, 100⟩ : SatelliteEnergy).updateGame 1 (.val 0)
        (fun _ => false)).inGame = true ∧
    ((⟨false, 2, 3, 1, 100, 100⟩ : SatelliteEnergy).updateGame 5 (.val 0)
        (fun _ => true)).inGame = false ∧
    ((⟨false, 2, 3, 10, 100, 100⟩ : SatelliteEnergy).updateGame 3 .nan
        (fun _ => true)).inGame = false :=
  ⟨c5_update_game_decision.2.1 _ 1 _ _ (by norm_num) (by norm_num) (by norm_num),
   c5_update_game_decision.1 _ 5 _ _ (by norm_num),
   c5_update_game_decision.2.2 _ 3 _ _ (by norm_num) (by decide)⟩

/-
Claim C4: packet relay invariants.
-/

/-- Appending the hop built by `Packet::add_hop` preserves chaining. -/
theorem chainedFrom_append (path : List Hop) (s r t : ℕ)
    (h : chainedFrom s path = true) :
    chainedFrom s
      (path ++ [⟨((path.getLast?.map (fun h => h.toId)).getD s), r, t⟩]) = true := by
  induction path generalizing s with
  | nil => simp [chainedFrom]
  | cons hd tl ih =>
    simp only [chainedFrom, Bool.and_eq_true, decide_eq_true_eq] at h
    have htl := ih hd.toId h.2
    simp only [List.cons_append, chainedFrom, Bool.and_eq_true, decide_eq_true_eq]
    refine ⟨h.1, ?_⟩
    cases tl with
    | nil => simpa using htl
    | cons a l => simpa [List.getLast?_cons_cons] using htl

/-- In a chained path every hop's sender is the start or one of the
receivers. -/
theorem fromId_mem_of_chained (path : List Hop) (s : ℕ)
    (h : chainedFrom s path = true) :
    ∀ hp ∈ path, hp.fromId = s ∨ hp.fromId ∈ path.map (fun h => h.toId) := by
  induction path generalizing s with
  | nil => simp
  | cons hd tl ih =>
    simp only [chainedFrom, Bool.and_eq_true, decide_eq_true_eq] at h
    intro hp hmem
    rcases List.mem_cons.mp hmem with rfl | hmem
    · exact Or.inl h.1
    · rcases ih hd.toId h.2 hp hmem with h1 | h1
      · right
        simp [h1]
      · right
        simp only [List.map_cons, List.mem_cons]
        exact Or.inr h1

/-- Invariant carried by every packet the relay can produce: the path is a
chain starting at the source, the visited agents are pairwise distinct,
and the path length plus the remaining ttl never exceeds the initial ttl
of 10. -/
theorem packetReach_inv (p : Packet) (h : PacketReach p) :
    chainedFrom p.source p.path = true ∧ p.visited.Nodup ∧
      p.path.length + p.ttl ≤ 10 := by
  induction h with
  | fresh id src =>
    refine ⟨rfl, ?_, by simp⟩
    simp [Packet.visited]
  | hop p r ts hp hinp httl hlast ih =>
    obtain ⟨hchain, hnodup, hlen⟩ := ih
    have hpath : ((p.decrementTtl).addHop r ts).path =
        p.path ++ [⟨p.lastNode, r, ts⟩] := by
      simp [Packet.decrementTtl, Packet.addHop, Packet.lastNode]
    have hsrc : ((p.decrementTtl).addHop r ts).source = p.source := by
      simp [Packet.decrementTtl, Packet.addHop]
    have httl2 : ((p.decrementTtl).addHop r ts).ttl = p.ttl - 1 := by
      simp [Packet.decrementTtl, Packet.addHop]
    have hnotin : ∀ hq ∈ p.path, hq.fromId ≠ r ∧ hq.toId ≠ r := by
      intro hq hmem
      constructor <;> intro he
      · have htrue : p.inPath r = true := by
          simp only [Packet.inPath, List.any_eq_true]
          exact ⟨hq, hmem, by simp [he]⟩
        rw [hinp] at htrue
        exact absurd htrue (by simp)
      · have htrue : p.inPath r = true := by
          simp only [Packet.inPath, List.any_eq_true]
          exact ⟨hq, hmem, by simp [he]⟩
        rw [hinp] at htrue
        exact absurd htrue (by simp)
    refine ⟨?_, ?_, ?_⟩
    · rw [hpath, hsrc]
      exact chainedFrom_append p.path p.source r ts hchain
    · have hvis : ((p.decrementTtl).addHop r ts).visited =
          p.visited ++ [r] := by
        simp [Packet.visited, hpath, hsrc]
      rw [hvis]
      rw [List.nodup_append]
      refine ⟨hnodup, by simp, ?_⟩
      intro a ha hb
      simp only [List.mem_singleton] at hb
      subst hb
      rcases List.mem_cons.mp ha with rfl | hmem
      · cases hcase : p.path with
        | nil =>
          apply hlast
          simp [Packet.lastNode, hcase]
        | cons hd tl =>
          rw [hcase] at hchain
          simp only [chainedFrom, Bool.and_eq_true, decide_eq_true_eq] at hchain
          have := hnotin hd (by simp [hcase])
          exact this.1 (hchain.1.symm ▸ rfl)
      · simp only [List.mem_map] at hmem
        obtain ⟨hp, hpmem, hpeq⟩ := hmem
        exact (hnotin hp hpmem).2 hpeq
    · rw [hpath, httl2]
      simp only [List.length_append, List.length_singleton]
      omega

/-- Claim C4: `SatelliteComms::add_packet` rejects (leaving the queue
unchanged) exactly when the receiver's id already appears in the packet's
path or the ttl is 0, and otherwise decrements the ttl and appends exactly
one hop from the previous path tail (or the original source) to the
receiver before enqueueing; consequently every packet the relay protocol
can place in an agent's queue visits no agent twice and has a path of
length at most the initial ttl of 10. -/
theorem c4_add_packet_and_path_invariants :
    (∀ (selfId : ℕ) (q : List Packet) (p : Packet) (ts : ℕ),
      ((p.inPath selfId = true ∨ p.ttl = 0) →
        SatelliteComms.addPacket selfId q p ts = q) ∧
      (p.inPath selfId = false → p.ttl ≠ 0 →
        SatelliteComms.addPacket selfId q p ts =
          q ++ [{ p with
                  ttl := p.ttl - 1
                  path := p.path ++ [⟨p.lastNode, selfId, ts⟩] }])) ∧
    (∀ p : Packet, PacketReach p → p.visited.Nodup ∧ p.path.length ≤ 10) := by
  constructor
  · intro selfId q p ts
    constructor
    · intro h
      rcases h with h | h
      · simp [SatelliteComms.addPacket, h]
      · simp only [SatelliteComms.addPacket, h]
        split_ifs <;> rfl
    · intro h1 h2
      simp [SatelliteComms.addPacket, h1, h2, Packet.decrementTtl,
        Packet.addHop, Packet.lastNode]
  · intro p h
    obtain ⟨hchain, hnodup, hlen⟩ := packetReach_inv p h
    exact ⟨hnodup, by omega⟩

/-- Claim C4, witness: a fresh packet from agent 0 (ttl 10, empty path)
accepted by agent 1 at time 5 gets ttl 9 and the single hop `0 → 1`; a
packet whose path already contains the receiver is rejected; the fresh
packet's invariants hold. -/
theorem c4_add_packet_witness :
    SatelliteComms.addPacket 1 [] ⟨1, 0, 10, []⟩ 5 =
      [] ++ [{ (⟨1, 0, 10, []⟩ : Packet) with
               ttl := 10 - 1
               path := [] ++ [⟨(⟨1, 0, 10, []⟩ : Packet).lastNode, 1, 5⟩] }] ∧
    SatelliteComms.addPacket 0 [] ⟨1, 0, 9, [⟨0, 1, 5⟩]⟩ 6 = [] ∧
    ((⟨1, 0, 10, []⟩ : Packet).visited.Nodup ∧
      (⟨1, 0, 10, []⟩ : Packet).path.length ≤ 10) :=
  ⟨(c4_add_packet_and_path_invariants.1 1 [] ⟨1, 0, 10, []⟩ 5).2 (by decide)
      (by decide),
   (c4_add_packet_and_path_invariants.1 0 [] ⟨1, 0, 9, [⟨0, 1, 5⟩]⟩ 6).1
      (Or.inl (by decide)),
   c4_add_packet_and_path_invariants.2 ⟨1, 0, 10, []⟩ (PacketReach.fresh 1 0)⟩

/-
Claims C6, C7, C10: the spatial index.
-/

/-- Subdivision of a proper box yields proper boxes. -/
theorem Box2d.subdivide_proper (b : Box2d) (hb : b.proper = true) :
    b.subdivide.1.proper = true ∧ b.subdivide.2.1.proper = true ∧
      b.subdivide.2.2.1.proper = true ∧ b.subdivide.2.2.2.proper = true := by
  simp only [Box2d.proper, Bool.and_eq_true, decide_eq_true_eq] at hb
  obtain ⟨hx, hy⟩ := hb
  simp only [Box2d.subdivide, Box2d.proper, Bool.and_eq_true, decide_eq_true_eq]
  refine ⟨⟨?_, ?_⟩, ⟨?_, ?_⟩, ⟨?_, ?_⟩, ⟨?_, ?_⟩⟩ <;> linarith

/-- A point inside any of the four subdivision boxes of a proper box is
inside the box itself. -/
theorem Box2d.contains_of_subdivide (b : Box2d) (p : Pt) (hb : b.proper = true)
    (h : b.subdivide.1.contains p = true ∨ b.subdivide.2.1.contains p = true ∨
      b.subdivide.2.2.1.contains p = true ∨ b.subdivide.2.2.2.contains p = true) :
    b.contains p = true := by
  simp only [Box2d.proper, Bool.and_eq_true, decide_eq_true_eq] at hb
  obtain ⟨hx, hy⟩ := hb
  simp only [Box2d.subdivide, Box2d.contains, Bool.and_eq_true,
    decide_eq_true_eq] at h
  simp only [Box2d.contains, Bool.and_eq_true, decide_eq_true_eq]
  rcases h with ⟨⟨h1, h2⟩, h3, h4⟩ | ⟨⟨h1, h2⟩, h3, h4⟩ | ⟨⟨h1, h2⟩, h3, h4⟩ |
    ⟨⟨h1, h2⟩, h3, h4⟩ <;>
    refine ⟨⟨?_, ?_⟩, ?_, ?_⟩ <;> linarith

/-- Two boxes sharing a point intersect. -/
theorem Box2d.intersects_of_contains_both (b1 b2 : Box2d) (p : Pt)
    (h1 : b1.contains p = true) (h2 : b2.contains p = true) :
    b1.intersectsBox b2 = true := by
  simp only [Box2d.contains, Bool.and_eq_true, decide_eq_true_eq] at h1 h2
  simp only [Box2d.intersectsBox, Bool.and_eq_true, decide_eq_true_eq]
  obtain ⟨⟨a1, a2⟩, a3, a4⟩ := h1
  obtain ⟨⟨c1, c2⟩, c3, c4⟩ := h2
  refine ⟨⟨⟨?_, ?_⟩, ?_⟩, ?_⟩ <;> linarith

/-- In a well-formed tree every stored entry lies inside the boundary of
the node holding it, hence inside the tree's root boundary. -/
theorem QuadTree.entries_in_boundary {V : Type} (t : QuadTree V)
    (hwf : t.wf = true) :
    ∀ e ∈ t.toEntries, t.boundary.contains e.1 = true := by
  induction t with
  | leaf cap bnd es =>
    simp only [QuadTree.wf, Bool.and_eq_true, List.all_eq_true] at hwf
    intro e he
    exact hwf.2 e he
  | node cap bnd es nw ne sw se ihnw ihne ihsw ihse =>
    simp only [QuadTree.wf, Bool.and_eq_true, List.all_eq_true,
      decide_eq_true_eq] at hwf
    obtain ⟨⟨⟨⟨⟨⟨⟨⟨⟨hp, hes⟩, hnwb⟩, hneb⟩, hseb⟩, hswb⟩, hnw⟩, hne⟩, hsw⟩, hse⟩ :=
      hwf
    intro e he
    simp only [QuadTree.toEntries, QuadTree.boundary, List.append_assoc,
      List.mem_append] at he ⊢
    rcases he with he | he | he | he | he
    · exact hes e he
    · refine Box2d.contains_of_subdivide bnd e.1 hp (Or.inl ?_)
      rw [← hnwb]
      exact ihnw hnw e he
    · refine Box2d.contains_of_subdivide bnd e.1 hp (Or.inr (Or.inl ?_))
      rw [← hneb]
      exact ihne hne e he
    · refine Box2d.contains_of_subdivide bnd e.1 hp
        (Or.inr (Or.inr (Or.inr ?_)))
      rw [← hswb]
      exact ihsw hsw e he
    · refine Box2d.contains_of_subdivide bnd e.1 hp
        (Or.inr (Or.inr (Or.inl ?_)))
      rw [← hseb]
      exact ihse hse e he

/-- On a well-formed tree `query_range` returns exactly the stored entries
whose point lies in the range (in storage order): the intersection pruning
never discards an entry of the range. -/
theorem QuadTree.queryRange_eq_filter {V : Type} (t : QuadTree V)
    (hwf : t.wf = true) (range : Box2d) :
    t.queryRange range = t.toEntries.filter (fun e => range.contains e.1) := by
  induction t with
  | leaf cap bnd es =>
    simp only [QuadTree.queryRange, QuadTree.toEntries]
    split_ifs with hint
    · refine (List.filter_eq_nil_iff.mpr ?_).symm
      intro e he hrange
      have hcont := QuadTree.entries_in_boundary _ hwf e he
      simp only [QuadTree.boundary] at hcont
      have := Box2d.intersects_of_contains_both bnd range e.1 hcont
        (by simpa using hrange)
      rw [hint] at this
      exact absurd this (by simp)
    · rfl
  | node cap bnd es nw ne sw se ihnw ihne ihsw ihse =>
    have hwf2 := hwf
    simp only [QuadTree.wf, Bool.and_eq_true, List.all_eq_true,
      decide_eq_true_eq] at hwf2
    obtain ⟨⟨⟨⟨⟨⟨⟨⟨⟨hp, hes⟩, hnwb⟩, hneb⟩, hseb⟩, hswb⟩, hnw⟩, hne⟩, hsw⟩, hse⟩ :=
      hwf2
    simp only [QuadTree.queryRange, QuadTree.toEntries]
    split_ifs with hint
    · refine (List.filter_eq_nil_iff.mpr ?_).symm
      intro e he hrange
      have hcont := QuadTree.entries_in_boundary _ hwf e he
      simp only [QuadTree.boundary] at hcont
      have := Box2d.intersects_of_contains_both bnd range e.1 hcont
        (by simpa using hrange)
      rw [hint] at this
      exact absurd this (by simp)
    · rw [ihnw hnw, ihne hne, ihsw hsw, ihse hse]
      simp [List.filter_append]

/-- On a full leaf whose boundary contains the point, `insert` behaves
exactly as on the subdivided node: the source subdivides and then
delegates to the children. -/
theorem QuadTree.insert_full_leaf_eq {V : Type} (fuel cap : ℕ) (bnd : Box2d)
    (es : List (Pt × V)) (p : Pt) (v : V) (hc : bnd.contains p = true)
    (hfull : ¬ es.length < cap) :
    QuadTree.insert (fuel + 1) (.leaf cap bnd es) p v =
      QuadTree.insert (fuel + 1) ((QuadTree.leaf cap bnd es).subdivideTree) p v := by
  simp only [QuadTree.insert, QuadTree.subdivideTree, QuadTree.boundary, hc,
    hfull, if_false]
  simp

/-- Permutation helper: replacing the middle list of a concatenation by a
permuted copy with one extra front element moves that element to the
front of the whole concatenation. -/
theorem perm_insert_middle {α : Type} (L R X2 X : List α) (a : α)
    (h : X2.Perm (a :: X)) :
    (L ++ (X2 ++ R)).Perm (a :: (L ++ (X ++ R))) := by
  have h2 : (L ++ ((a :: X) ++ R)).Perm (a :: (L ++ (X ++ R))) := by
    simpa using List.perm_middle
  exact ((h.append_right R).append_left L).trans h2

/-- Soundness of one `QuadTree::insert` call on a well-formed tree: the
boundary is unchanged, well-formedness is preserved, a successful insert
adds exactly the new entry to the stored entries (up to order), and a
failed insert leaves the stored entries unchanged. -/
theorem QuadTree.insert_spec {V : Type} (p : Pt) (v : V) :
    ∀ (fuel : ℕ) (t t2 : QuadTree V) (bres : Bool),
      QuadTree.insert fuel t p v = some (t2, bres) → t.wf = true →
      t2.boundary = t.boundary ∧ t2.wf = true ∧
        (bres = true → t2.toEntries.Perm ((p, v) :: t.toEntries)) ∧
        (bres = false → t2.toEntries = t.toEntries) := by
  intro fuel
  induction fuel with
  | zero =>
    intro t t2 bres h
    simp [QuadTree.insert] at h
  | succ fuel ih =>
    have hstep : ∀ (cap : ℕ) (bnd : Box2d) (es : List (Pt × V))
        (nw ne sw se : QuadTree V) (t2 : QuadTree V) (bres : Bool),
        QuadTree.insert (fuel + 1) (.node cap bnd es nw ne sw se) p v =
          some (t2, bres) →
        (QuadTree.node cap bnd es nw ne sw se).wf = true →
        t2.boundary = bnd ∧ t2.wf = true ∧
          (bres = true → t2.toEntries.Perm
            ((p, v) :: (QuadTree.node cap bnd es nw ne sw se).toEntries)) ∧
          (bres = false → t2.toEntries =
            (QuadTree.node cap bnd es nw ne sw se).toEntries) := by
      intro cap bnd es nw ne sw se t2 bres h hwfn
      have hwfparts := hwfn
      simp only [QuadTree.wf, Bool.and_eq_true, List.all_eq_true,
        decide_eq_true_eq] at hwfparts
      obtain ⟨⟨⟨⟨⟨⟨⟨⟨⟨hp, hes⟩, hnwb⟩, hneb⟩, hseb⟩, hswb⟩, hnwwf⟩, hnewf⟩,
        hswwf⟩, hsewf⟩ := hwfparts
      simp only [QuadTree.insert, QuadTree.boundary] at h
      cases hcp : bnd.contains p with
      | false =>
        rw [hcp] at h
        simp only [eq_self_iff_true, if_true, Option.some.injEq,
          Prod.mk.injEq] at h
        obtain ⟨rfl, rfl⟩ := h
        exact ⟨rfl, hwfn, by simp, fun _ => rfl⟩
      | true =>
        rw [hcp] at h
        rw [if_neg (by simp)] at h
        cases hnw : QuadTree.insert fuel nw p v with
        | none =>
          rw [hnw] at h
          simp at h
        | some rnw =>
          obtain ⟨nw2, bnw⟩ := rnw
          rw [hnw] at h
          cases bnw with
          | true =>
            simp only [Option.some.injEq, Prod.mk.injEq] at h
            obtain ⟨rfl, rfl⟩ := h
            obtain ⟨hb1, hw1, hpe1, _⟩ := ih nw nw2 true hnw hnwwf
            refine ⟨rfl, ?_, fun _ => ?_, by simp⟩
            · simp only [QuadTree.wf, Bool.and_eq_true, List.all_eq_true,
                decide_eq_true_eq]
              exact ⟨⟨⟨⟨⟨⟨⟨⟨⟨hp, hes⟩, by rw [hb1]; exact hnwb⟩, hneb⟩, hseb⟩,
                hswb⟩, hw1⟩, hnewf⟩, hswwf⟩, hsewf⟩
            · simp only [QuadTree.toEntries, List.append_assoc]
              exact perm_insert_middle es _ nw2.toEntries nw.toEntries (p, v)
                (hpe1 rfl)
          | false =>
            obtain ⟨hb1, hw1, _, hee1⟩ := ih nw nw2 false hnw hnwwf
            have hnwE := hee1 rfl
            cases hne : QuadTree.insert fuel ne p v with
            | none =>
              rw [hne] at h
              simp at h
            | some rne =>
              obtain ⟨ne2, bne⟩ := rne
              rw [hne] at h
              cases bne with
              | true =>
                simp only [Option.some.injEq, Prod.mk.injEq] at h
                obtain ⟨rfl, rfl⟩ := h
                obtain ⟨hb2, hw2, hpe2, _⟩ := ih ne ne2 true hne hnewf
                refine ⟨rfl, ?_, fun _ => ?_, by simp⟩
                · simp only [QuadTree.wf, Bool.and_eq_true, List.all_eq_true,
                    decide_eq_true_eq]
                  exact ⟨⟨⟨⟨⟨⟨⟨⟨⟨hp, hes⟩, by rw [hb1]; exact hnwb⟩,
                    by rw [hb2]; exact hneb⟩, hseb⟩, hswb⟩, hw1⟩, hw2⟩,
                    hswwf⟩, hsewf⟩
                · simp only [QuadTree.toEntries, List.append_assoc, hnwE]
                  have := perm_insert_middle (es ++ nw.toEntries)
                    (sw.toEntries ++ se.toEntries) ne2.toEntries ne.toEntries
                    (p, v) (hpe2 rfl)
                  simpa [List.append_assoc] using this
              | false =>
                obtain ⟨hb2, hw2, _, hee2⟩ := ih ne ne2 false hne hnewf
                have hneE := hee2 rfl
                cases hsw : QuadTree.insert fuel sw p v with
                | none =>
                  rw [hsw] at h
                  simp at h
                | some rsw =>
                  obtain ⟨sw2, bsw⟩ := rsw
                  rw [hsw] at h
                  cases bsw with
                  | true =>
                    simp only [Option.some.injEq, Prod.mk.injEq] at h
                    obtain ⟨rfl, rfl⟩ := h
                    obtain ⟨hb3, hw3, hpe3, _⟩ := ih sw sw2 true hsw hswwf
                    refine ⟨rfl, ?_, fun _ => ?_, by simp⟩
                    · simp only [QuadTree.wf, Bool.and_eq_true,
                        List.all_eq_true, decide_eq_true_eq]
                      exact ⟨⟨⟨⟨⟨⟨⟨⟨⟨hp, hes⟩, by rw [hb1]; exact hnwb⟩,
                        by rw [hb2]; exact hneb⟩, hseb⟩,
                        by rw [hb3]; exact hswb⟩, hw1⟩, hw2⟩, hw3⟩, hsewf⟩
                    · simp only [QuadTree.toEntries, List.append_assoc, hnwE,
                        hneE]
                      have := perm_insert_middle
                        (es ++ nw.toEntries ++ ne.toEntries) se.toEntries
                        sw2.toEntries sw.toEntries (p, v) (hpe3 rfl)
                      simpa [List.append_assoc] using this
                  | false =>
                    obtain ⟨hb3, hw3, _, hee3⟩ := ih sw sw2 false hsw hswwf
                    have hswE := hee3 rfl
                    cases hse : QuadTree.insert fuel se p v with
                    | none =>
                      rw [hse] at h
                      simp at h
                    | some rse =>
                      obtain ⟨se2, bse⟩ := rse
                      rw [hse] at h
                      obtain ⟨hb4, hw4, hpe4, hee4⟩ :=
                        ih se se2 bse hse hsewf
                      have hwf2 : (QuadTree.node cap bnd es nw2 ne2 sw2 se2).wf
                          = true := by
                        simp only [QuadTree.wf, Bool.and_eq_true,
                          List.all_eq_true, decide_eq_true_eq]
                        exact ⟨⟨⟨⟨⟨⟨⟨⟨⟨hp, hes⟩, by rw [hb1]; exact hnwb⟩,
                          by rw [hb2]; exact hneb⟩,
                          by rw [hb4]; exact hseb⟩,
                          by rw [hb3]; exact hswb⟩, hw1⟩, hw2⟩, hw3⟩, hw4⟩
                      cases bse with
                      | true =>
                        simp only [Option.some.injEq, Prod.mk.injEq] at h
                        obtain ⟨rfl, rfl⟩ := h
                        refine ⟨rfl, hwf2, fun _ => ?_, by simp⟩
                        simp only [QuadTree.toEntries, List.append_assoc,
                          hnwE, hneE, hswE]
                        have := perm_insert_middle
                          (es ++ nw.toEntries ++ ne.toEntries ++ sw.toEntries)
                          [] se2.toEntries se.toEntries (p, v) (hpe4 rfl)
                        simpa [List.append_assoc] using this
                      | false =>
                        simp only [Option.some.injEq, Prod.mk.injEq] at h
                        obtain ⟨rfl, rfl⟩ := h
                        refine ⟨rfl, hwf2, by simp, fun _ => ?_⟩
                        simp only [QuadTree.toEntries, hnwE, hneE, hswE,
                          hee4 rfl]
    intro t t2 bres h hwf
    cases t with
    | node cap bnd es nw ne sw se =>
      have := hstep cap bnd es nw ne sw se t2 bres h hwf
      simpa [QuadTree.boundary] using this
    | leaf cap bnd es =>
      by_cases hcp : bnd.contains p = true
      · by_cases hroom : es.length < cap
        · simp only [QuadTree.insert, QuadTree.boundary, hcp] at h
          rw [if_neg (by simp)] at h
          rw [if_pos hroom] at h
          simp only [Option.some.injEq, Prod.mk.injEq] at h
          obtain ⟨rfl, rfl⟩ := h
          have hwfparts := hwf
          simp only [QuadTree.wf, Bool.and_eq_true, List.all_eq_true] at hwfparts
          refine ⟨rfl, ?_, fun _ => ?_, by simp⟩
          · simp only [QuadTree.wf, Bool.and_eq_true, List.all_eq_true]
            refine ⟨hwfparts.1, ?_⟩
            intro e he
            rcases List.mem_append.mp he with he | he
            · exact hwfparts.2 e he
            · simp only [List.mem_singleton] at he
              subst he
              exact hcp
          · simp only [QuadTree.toEntries]
            exact List.perm_append_singleton (p, v) es

        · rw [QuadTree.insert_full_leaf_eq fuel cap bnd es p v hcp hroom] at h
          have hwfsub : ((QuadTree.leaf cap bnd es).subdivideTree :
              QuadTree V).wf = true := by
            have hwfparts := hwf
            simp only [QuadTree.wf, Bool.and_eq_true, List.all_eq_true]
              at hwfparts
            obtain ⟨hprop, hcont⟩ := hwfparts
            obtain ⟨hq1, hq2, hq3, hq4⟩ := Box2d.subdivide_proper bnd hprop
            simp only [QuadTree.subdivideTree, QuadTree.wf, QuadTree.boundary,
              Bool.and_eq_true, List.all_eq_true, decide_eq_true_eq]
            refine ⟨⟨⟨⟨⟨⟨⟨⟨⟨hprop, hcont⟩, ?_⟩, ?_⟩, ?_⟩, ?_⟩,
              ⟨hq1, ?_⟩⟩, ⟨hq2, ?_⟩⟩, ⟨hq4, ?_⟩⟩, ⟨hq3, ?_⟩⟩ <;> simp
          have := hstep cap bnd es _ _ _ _ t2 bres
            (by simpa [QuadTree.subdivideTree] using h) hwfsub
          simp only [QuadTree.subdivideTree] at this
          obtain ⟨hb, hw, hpe, hee⟩ := this
          refine ⟨by simpa [QuadTree.boundary] using hb, hw, fun hb2 => ?_,
            fun hb2 => ?_⟩
          · have := hpe hb2
            simpa [QuadTree.toEntries] using this
          · have := hee hb2
            simpa [QuadTree.toEntries] using this
      · have hcf : bnd.contains p = false := by
          cases hx : bnd.contains p with
          | false => rfl
          | true => exact absurd hx hcp
        simp only [QuadTree.insert, QuadTree.boundary, hcf, if_pos rfl,
          Option.some.injEq, Prod.mk.injEq] at h
        obtain ⟨rfl, rfl⟩ := h
        exact ⟨rfl, hwf, by simp, fun _ => rfl⟩

/-- Soundness of a sequence of successful insertions: well-formedness and
the boundary are preserved and the stored entries are exactly the old ones
plus the inserted ones (up to order). -/
theorem QuadTree.insertAll_spec {V : Type} (fuel : ℕ) :
    ∀ (es : List (Pt × V)) (t t2 : QuadTree V),
      QuadTree.insertAll fuel es t = some t2 → t.wf = true →
      t2.wf = true ∧ t2.boundary = t.boundary ∧
        t2.toEntries.Perm (es ++ t.toEntries) := by
  intro es
  induction es with
  | nil =>
    intro t t2 h hwf
    simp only [QuadTree.insertAll, Option.some.injEq] at h
    subst h
    exact ⟨hwf, rfl, by simp⟩
  | cons e rest ih =>
    intro t t2 h hwf
    simp only [QuadTree.insertAll] at h
    cases hins : QuadTree.insert fuel t e.1 e.2 with
    | none =>
      rw [hins] at h
      simp at h
    | some r =>
      obtain ⟨t1, bres⟩ := r
      rw [hins] at h
      cases bres with
      | false => simp at h
      | true =>
        obtain ⟨hb1, hw1, hpe1, _⟩ := QuadTree.insert_spec e.1 e.2 fuel t t1
          true hins hwf
        obtain ⟨hw2, hb2, hpe2⟩ := ih t1 t2 h hw1
        refine ⟨hw2, by rw [hb2, hb1], ?_⟩
        have h3 : (rest ++ t1.toEntries).Perm (rest ++ (e :: t.toEntries)) :=
          (hpe1 rfl).append_left rest
        have h4 : (rest ++ (e :: t.toEntries)).Perm
            ((e :: rest) ++ t.toEntries) := by
          simpa using List.perm_middle
        exact hpe2.trans (h3.trans h4)

/-- Claim C6: quadtree completeness.  Insert any list of entries into an
empty tree over a proper root boundary (each insertion succeeding, as it
does for in-boundary points given enough fuel); then `query_range` over
the root boundary returns every inserted entry exactly once: the result is
a permutation of the inserted list, and it is duplicate-free whenever the
inserted entries are pairwise distinct.  Entries lying on shared
child-boundary midlines after subdivision are covered: insertion places
them in exactly the first child that contains them, and the query visits
every child. -/
theorem c6_quadtree_query_complete {V : Type} (fuel cap : ℕ) (b : Box2d)
    (es : List (Pt × V)) (t : QuadTree V) (hb : b.proper = true)
    (h : QuadTree.insertAll fuel es (QuadTree.leaf cap b []) = some t) :
    (t.queryRange b).Perm es ∧ (es.Nodup → (t.queryRange b).Nodup) := by
  have hwf0 : (QuadTree.leaf cap b [] : QuadTree V).wf = true := by
    simp [QuadTree.wf, hb]
  obtain ⟨hwf, hbnd, hperm⟩ := QuadTree.insertAll_spec fuel es _ t h hwf0
  have hq : t.queryRange b = t.toEntries.filter (fun e => b.contains e.1) :=
    QuadTree.queryRange_eq_filter t hwf b
  have hfilter : t.toEntries.filter (fun e => b.contains e.1) = t.toEntries := by
    refine List.filter_eq_self.mpr ?_
    intro e he
    have := QuadTree.entries_in_boundary t hwf e he
    rwa [hbnd] at this
  have hperm2 : (t.queryRange b).Perm es := by
    rw [hq, hfilter]
    simpa [QuadTree.toEntries] using hperm
  exact ⟨hperm2, fun hnd => hperm2.nodup_iff.mpr hnd⟩

/-- Claim C6, witness: five coincident points at the screen center (which
lies on the shared midlines of the first subdivision) inserted into the
simulation's root box with capacity 4; the query over the root boundary
returns exactly the five entries. -/
theorem c6_quadtree_query_complete_witness :
    ∃ t : QuadTree ℕ,
      QuadTree.insertAll 10
        [(⟨600, 600⟩, 0), (⟨600, 600⟩, 1), (⟨600, 600⟩, 2), (⟨600, 600⟩, 3),
          (⟨600, 600⟩, 4)]
        (QuadTree.leaf 4 ⟨⟨0, 1200⟩, ⟨1200, 0⟩⟩ []) = some t ∧
      (t.queryRange ⟨⟨0, 1200⟩, ⟨1200, 0⟩⟩).Perm
        [(⟨600, 600⟩, 0), (⟨600, 600⟩, 1), (⟨600, 600⟩, 2), (⟨600, 600⟩, 3),
          (⟨600, 600⟩, 4)] ∧
      (QuadTree.queryRange t ⟨⟨0, 1200⟩, ⟨1200, 0⟩⟩).Nodup := by
  cases hres : QuadTree.insertAll 10
      [(⟨600, 600⟩, 0), (⟨600, 600⟩, 1), (⟨600, 600⟩, 2), (⟨600, 600⟩, 3),
        (⟨600, 600⟩, 4)]
      (QuadTree.leaf 4 ⟨⟨0, 1200⟩, ⟨1200, 0⟩⟩ [] : QuadTree ℕ) with
  | none => exact absurd hres (by decide)
  | some t =>
    refine ⟨t, rfl, ?_⟩
    have hc := c6_quadtree_query_complete 10 4 ⟨⟨0, 1200⟩, ⟨1200, 0⟩⟩ _ t
      (by decide) hres
    exact ⟨hc.1, hc.2 (by decide)⟩

/-- Claim C7: a point strictly outside the (root) boundary of a
well-formed tree is rejected by `insert` — the call returns `false` and
the tree is returned unchanged — and no entry at that point is ever
reported by `query_range` on such a tree.  Since rejection leaves the tree
unchanged and every successful insertion preserves well-formedness and the
boundary (`QuadTree.insert_spec`), this applies to every subsequent state
of the tree, so the point never appears in any later query either. -/
theorem c7_quadtree_reject {V : Type} (fuel : ℕ) (t : QuadTree V) (p : Pt)
    (v : V) (hwf : t.wf = true) (hout : t.boundary.contains p = false) :
    QuadTree.insert (fuel + 1) t p v = some (t, false) ∧
      ∀ (range : Box2d) (e : Pt × V), e ∈ t.queryRange range → e.1 ≠ p := by
  constructor
  · cases t with
    | leaf cap bnd es => simp [QuadTree.insert, QuadTree.boundary] at hout ⊢; simp [hout]
    | node cap bnd es nw ne sw se =>
        simp [QuadTree.insert, QuadTree.boundary] at hout ⊢; simp [hout]
  · intro range e he hep
    rw [QuadTree.queryRange_eq_filter t hwf range] at he
    have hmem := List.mem_of_mem_filter he
    have hcont := QuadTree.entries_in_boundary t hwf e hmem
    rw [hep] at hcont
    rw [hout] at hcont
    exact absurd hcont (by simp)

/-- Claim C7, witness: the point `(2000, 50)` lies outside the
simulation's root box; inserting it into the freshly built root is
rejected without mutation, and it never appears in a query. -/
theorem c7_quadtree_reject_witness :
    QuadTree.insert 10 (QuadTree.leaf 4 ⟨⟨0, 1200⟩, ⟨1200, 0⟩⟩ [] : QuadTree ℕ)
        ⟨2000, 50⟩ 7 =
      some (QuadTree.leaf 4 ⟨⟨0, 1200⟩, ⟨1200, 0⟩⟩ [], false) ∧
    ∀ (range : Box2d) (e : Pt × ℕ),
      e ∈ (QuadTree.leaf 4 ⟨⟨0, 1200⟩, ⟨1200, 0⟩⟩ [] :
        QuadTree ℕ).queryRange range → e.1 ≠ ⟨2000, 50⟩ :=
  c7_quadtree_reject 9 _ _ 7 (by decide) (by decide)

/-- A capacity-0 leaf can never store its top-left corner: the node is
permanently full, so `insert` subdivides and recurses into the fresh
north-west child, which again has capacity 0 and the same top-left
corner — the recursion descends forever, exhausting any fuel. -/
theorem QuadTree.insert_cap0_none {V : Type} (v : V) :
    ∀ (fuel : ℕ) (b : Box2d), b.proper = true →
      QuadTree.insert fuel (QuadTree.leaf 0 b []) b.topLeft v = none := by
  intro fuel
  induction fuel with
  | zero => intro b hb; rfl
  | succ fuel ih =>
    intro b hb
    have hbparts := hb
    simp only [Box2d.proper, Bool.and_eq_true, decide_eq_true_eq] at hbparts
    have hc : b.contains b.topLeft = true := by
      simp only [Box2d.contains, Bool.and_eq_true, decide_eq_true_eq]
      exact ⟨⟨le_refl _, hbparts.1⟩, hbparts.2, le_refl _⟩
    have hrec := ih b.subdivide.1 (Box2d.subdivide_proper b hb).1
    have htl : (b.subdivide.1).topLeft = b.topLeft := rfl
    rw [htl] at hrec
    simp only [QuadTree.insert, QuadTree.boundary, hc, QuadTree.subdivideTree]
    rw [if_neg (by simp)]
    rw [if_neg (by simp : ¬ ([] : List (Pt × V)).length < 0)]
    rw [hrec]

/-- Claim C10: `QuadTree::insert` is not a terminating total function:
with capacity 0 (so that any number of stored points, i.e. zero, already
exceeds the capacity) inserting a point of the boundary — here the
simulation's root box and its top-left corner — subdivides recursively
without bound, because no depth limit or minimum cell size exists; the
embedded recursion exhausts every finite depth budget.  (For capacity ≥ 1
each single call terminates once the fuel exceeds the current tree depth,
but the depth grows without bound as coincident points accumulate:
every `capacity` coincident insertions add one more level.) -/
theorem c10_insert_unbounded_recursion :
    ∀ fuel : ℕ,
      QuadTree.insert fuel
        (QuadTree.leaf 0 ⟨⟨0, 1200⟩, ⟨1200, 0⟩⟩ [] : QuadTree ℕ)
        ⟨0, 1200⟩ 0 = none := fun fuel =>
  QuadTree.insert_cap0_none 0 fuel ⟨⟨0, 1200⟩, ⟨1200, 0⟩⟩ (by decide)

/-
Claim C8: head election.
-/

/-- Squared distances are nonnegative. -/
theorem sqDist_nonneg (p q : Pt) : 0 ≤ sqDist p q := by
  unfold sqDist
  have h1 := mul_self_nonneg (p.x - q.x)
  have h2 := mul_self_nonneg (p.y - q.y)
  linarith

/-- Squared distance is symmetric. -/
theorem sqDist_comm (p q : Pt) : sqDist p q = sqDist q p := by
  unfold sqDist
  ring

/-- A failed strict comparison `√s < c` with `c ≥ 0` and `s ≥ 0` means
`c² ≤ s`, i.e. the distance is at least `c`. -/
theorem sqrtLt_false (s c : ℚ) (hc : 0 ≤ c) (hs : 0 ≤ s)
    (h : sqrtLt s c = false) : c * c ≤ s := by
  simp only [sqrtLt, Bool.and_eq_false_iff, decide_eq_false_iff_not] at h
  rcases h with h | h
  · have : c = 0 := le_antisymm (not_lt.mp h) hc
    rw [this]
    simpa using hs
  · exact not_lt.mp h

/-- Members of the election fold come from the accumulator or the
candidate list. -/
theorem electFold_mem (pos : ℕ → Pt) (cd : ℚ) :
    ∀ (l acc : List ℕ) (x : ℕ), x ∈ l.foldl (electStep pos cd) acc →
      x ∈ acc ∨ x ∈ l := by
  intro l
  induction l with
  | nil => intro acc x h; exact Or.inl h
  | cons i t ih =>
    intro acc x h
    rcases ih (electStep pos cd acc i) x h with h2 | h2
    · unfold electStep at h2
      split_ifs at h2 with hcond
      · rcases List.mem_append.mp h2 with h3 | h3
        · exact Or.inl h3
        · simp only [List.mem_singleton] at h3
          subst h3
          exact Or.inr (List.mem_cons_self _ _)
      · exact Or.inl h2
    · exact Or.inr (List.mem_cons_of_mem _ h2)

/-- The election fold never drops an accepted head. -/
theorem electFold_mono (pos : ℕ → Pt) (cd : ℚ) :
    ∀ (l acc : List ℕ) (x : ℕ), x ∈ acc →
      x ∈ l.foldl (electStep pos cd) acc := by
  intro l
  induction l with
  | nil => intro acc x h; exact h
  | cons i t ih =>
    intro acc x h
    refine ih _ x ?_
    unfold electStep
    split_ifs
    · exact List.mem_append.mpr (Or.inl h)
    · exact h

/-- The election fold keeps accepted heads pairwise separated: each later
head fails the `distance < cluster_distance` test against every earlier
one. -/
theorem electFold_pairwise (pos : ℕ → Pt) (cd : ℚ) :
    ∀ (l acc : List ℕ),
      acc.Pairwise (fun a b => sqrtLt (sqDist (pos b) (pos a)) cd = false) →
      (l.foldl (electStep pos cd) acc).Pairwise
        (fun a b => sqrtLt (sqDist (pos b) (pos a)) cd = false) := by
  intro l
  induction l with
  | nil => intro acc h; exact h
  | cons i t ih =>
    intro acc h
    refine ih _ ?_
    unfold electStep
    split_ifs with hcond
    · rw [List.pairwise_append]
      refine ⟨h, by simp, ?_⟩
      intro a ha b hb
      simp only [List.mem_singleton] at hb
      subst hb
      simp only [List.all_eq_true, Bool.not_eq_true'] at hcond
      exact hcond a ha
    · exact h

/-- A candidate missing from the election outcome was rejected because
some accepted head lies strictly within `cluster_distance` of it. -/
theorem electFold_reject (pos : ℕ → Pt) (cd : ℚ) :
    ∀ (l acc : List ℕ) (x : ℕ), x ∈ l →
      x ∈ l.foldl (electStep pos cd) acc ∨
        ∃ h ∈ l.foldl (electStep pos cd) acc,
          sqrtLt (sqDist (pos x) (pos h)) cd = true := by
  intro l
  induction l with
  | nil => intro acc x h; exact absurd h (by simp)
  | cons i t ih =>
    intro acc x hx
    rcases List.mem_cons.mp hx with rfl | hx2
    · by_cases hcond :
        acc.all (fun h => !sqrtLt (sqDist (pos x) (pos h)) cd) = true
      · left
        refine electFold_mono pos cd t _ x ?_
        unfold electStep
        rw [if_pos hcond]
        exact List.mem_append.mpr (Or.inr (by simp))
      · right
        simp only [List.all_eq_true, Bool.not_eq_true'] at hcond
        push_neg at hcond
        obtain ⟨h, hh, hne⟩ := hcond
        refine ⟨h, electFold_mono pos cd t _ h ?_, ?_⟩
        · unfold electStep
          split_ifs
          · exact List.mem_append.mpr (Or.inl hh)
          · exact hh
        · cases hval : sqrtLt (sqDist (pos x) (pos h)) cd with
          | false => exact absurd hval hne
          | true => rfl
    · exact ih _ x hx2

/-- The election fold produces a duplicate-free head list when fed a
duplicate-free candidate list disjoint from the accumulator. -/
theorem electFold_nodup (pos : ℕ → Pt) (cd : ℚ) :
    ∀ (l acc : List ℕ), l.Nodup → acc.Nodup → (∀ x ∈ acc, x ∉ l) →
      (l.foldl (electStep pos cd) acc).Nodup := by
  intro l
  induction l with
  | nil => intro acc _ ha _; exact ha
  | cons i t ih =>
    intro acc hl ha hdis
    have hit : i ∉ t := (List.nodup_cons.mp hl).1
    have ht : t.Nodup := (List.nodup_cons.mp hl).2
    refine ih _ ht ?_ ?_
    · unfold electStep
      split_ifs
      · rw [List.nodup_append]
        refine ⟨ha, by simp, ?_⟩
        intro x hx
        simp only [List.mem_singleton]
        intro hxi
        subst hxi
        exact hdis x hx (List.mem_cons_self _ _)
      · exact ha
    · intro x hx
      unfold electStep at hx
      split_ifs at hx
      · rcases List.mem_append.mp hx with hx2 | hx2
        · exact fun hxt => hdis x hx2 (List.mem_cons_of_mem _ hxt)
        · simp only [List.mem_singleton] at hx2
          subst hx2
          exact hit
      · exact fun hxt => hdis x hx (List.mem_cons_of_mem _ hxt)

/-- The candidate list is duplicate-free and characterizes exactly the
agents above the energy threshold. -/
theorem clusterHeadCandidates_mem (n : ℕ) (energy : ℕ → ℚ) (thr : ℚ) :
    (clusterHeadCandidates n energy thr).Nodup ∧
      ∀ i, i ∈ clusterHeadCandidates n energy thr ↔
        i < n ∧ thr < energy i := by
  constructor
  · exact (List.nodup_range n).filter _
  · intro i
    simp [clusterHeadCandidates, List.mem_filter]

/-- The elected head list is duplicate-free. -/
theorem electHeads_nodup (n : ℕ) (pos : ℕ → Pt) (energy : ℕ → ℚ)
    (s : Settings) : (electHeads n pos energy s).Nodup := by
  unfold electHeads
  exact electFold_nodup pos s.clusterDistance _ []
    (clusterHeadCandidates_mem n energy s.energyThreshold).1 (by simp)
    (by simp)

/-- Claim C8: head election.  With a nonnegative `cluster_distance`:
(1) every elected head is a candidate, i.e. has `energy >
energy_threshold`; (2) every pair of distinct elected heads is at
Euclidean distance at least `cluster_distance` (stated on squares:
`cluster_distance² ≤ squared distance`); (3) a candidate that was not
elected was rejected because some elected head lies strictly within
`cluster_distance` of it (so acceptance is exactly the greedy rule over
the candidates in ascending id order, the order in which
`clusterHeadCandidates` enumerates them). -/
theorem c8_head_election (n : ℕ) (pos : ℕ → Pt) (energy : ℕ → ℚ)
    (s : Settings) (hcd : 0 ≤ s.clusterDistance) :
    (∀ h ∈ electHeads n pos energy s, s.energyThreshold < energy h) ∧
    (∀ h1 ∈ electHeads n pos energy s, ∀ h2 ∈ electHeads n pos energy s,
      h1 ≠ h2 →
      s.clusterDistance * s.clusterDistance ≤ sqDist (pos h1) (pos h2)) ∧
    (∀ i ∈ clusterHeadCandidates n energy s.energyThreshold,
      i ∉ electHeads n pos energy s →
      ∃ h ∈ electHeads n pos energy s,
        sqDist (pos i) (pos h) < s.clusterDistance * s.clusterDistance ∧
          0 < s.clusterDistance) := by
  refine ⟨?_, ?_, ?_⟩
  · intro h hh
    rcases electFold_mem pos s.clusterDistance _ [] h hh with h2 | h2
    · exact absurd h2 (by simp)
    · exact (((clusterHeadCandidates_mem n energy s.energyThreshold).2 h).mp
        h2).2
  · have hpw := electFold_pairwise pos s.clusterDistance
      (clusterHeadCandidates n energy s.energyThreshold) [] (by simp)
    have hpw2 : (electHeads n pos energy s).Pairwise
        (fun a b => s.clusterDistance * s.clusterDistance ≤
          sqDist (pos a) (pos b)) := by
      refine List.Pairwise.imp ?_ hpw
      intro a b hab
      rw [sqDist_comm]
      exact sqrtLt_false _ _ hcd (sqDist_nonneg _ _) hab
    have hsym : Symmetric (fun a b => s.clusterDistance * s.clusterDistance ≤
        sqDist (pos a) (pos b)) := by
      intro a b hab
      rwa [sqDist_comm]
    exact fun h1 hh1 h2 hh2 hne => hpw2.forall hsym hh1 hh2 hne
  · intro i hi hni
    rcases electFold_reject pos s.clusterDistance _ [] i hi with h2 | h2
    · exact absurd h2 hni
    · obtain ⟨h, hh, htrue⟩ := h2
      refine ⟨h, hh, ?_⟩
      simp only [sqrtLt, Bool.and_eq_true, decide_eq_true_eq] at htrue
      exact ⟨htrue.2, htrue.1⟩


/-- Claim C8, witness: in the spec's scenario agents 0 and 2 are elected
(agent 1 is within 100 of agent 0), and the theorem's three conclusions
hold at this input. -/
theorem c8_head_election_witness :
    electHeads 3 posW8 energyW8 settingsW = [0, 2] ∧
    ((∀ h ∈ electHeads 3 posW8 energyW8 settingsW,
        settingsW.energyThreshold < energyW8 h) ∧
      (∀ h1 ∈ electHeads 3 posW8 energyW8 settingsW,
        ∀ h2 ∈ electHeads 3 posW8 energyW8 settingsW, h1 ≠ h2 →
        settingsW.clusterDistance * settingsW.clusterDistance ≤
          sqDist (posW8 h1) (posW8 h2)) ∧
      (∀ i ∈ clusterHeadCandidates 3 energyW8 settingsW.energyThreshold,
        i ∉ electHeads 3 posW8 energyW8 settingsW →
        ∃ h ∈ electHeads 3 posW8 energyW8 settingsW,
          sqDist (posW8 i) (posW8 h) <
            settingsW.clusterDistance * settingsW.clusterDistance ∧
            0 < settingsW.clusterDistance)) :=
  ⟨by decide, c8_head_election 3 posW8 energyW8 settingsW (by decide)⟩

/-
Claim C2: membership assignment.
-/


/-- The fold inside `assignHead` is the fold of `nearestStep`. -/
theorem assignHead_eq_fold (pos : ℕ → Pt) (heads : List ℕ) (i : ℕ) :
    assignHead pos heads i =
      (heads.foldl (nearestStep pos i) (sqDistFromEarth (pos i), none)).2 := rfl

/-- Once some head has been selected the fold never returns to `none`. -/
theorem nearestFold_isSome (pos : ℕ → Pt) (i : ℕ) :
    ∀ (l : List ℕ) (b : ℚ) (h0 : ℕ),
      ((l.foldl (nearestStep pos i) (b, some h0)).2).isSome = true := by
  intro l
  induction l with
  | nil => intro b h0; rfl
  | cons h t ih =>
    intro b h0
    rw [List.foldl_cons]
    unfold nearestStep
    split_ifs
    · exact ih _ _
    · exact ih _ _

/-- The fold stays at `none` exactly when no head beats the running bound,
which never decreases while the result is `none`. -/
theorem nearestFold_none_iff (pos : ℕ → Pt) (i : ℕ) :
    ∀ (l : List ℕ) (b : ℚ),
      (l.foldl (nearestStep pos i) (b, none)).2 = none ↔
        ∀ h ∈ l, b ≤ sqDist (pos i) (pos h) := by
  intro l
  induction l with
  | nil => intro b; simp
  | cons h t ih =>
    intro b
    by_cases hlt : sqDist (pos i) (pos h) < b
    · constructor
      · intro hnone
        have : ((t.foldl (nearestStep pos i)
            (sqDist (pos i) (pos h), some h)).2).isSome = true :=
          nearestFold_isSome pos i t _ h
        rw [show (h :: t).foldl (nearestStep pos i) (b, none) =
            t.foldl (nearestStep pos i) (sqDist (pos i) (pos h), some h) by
          simp [List.foldl_cons, nearestStep, hlt]] at hnone
        rw [hnone] at this
        exact absurd this (by simp)
      · intro hall
        exact absurd (hall h (by simp)) (not_le.mpr hlt)
    · rw [show (h :: t).foldl (nearestStep pos i) (b, none) =
          t.foldl (nearestStep pos i) (b, none) by
        simp [List.foldl_cons, nearestStep, hlt]]
      rw [ih b]
      constructor
      · intro hall
        intro h2 hh2
        rcases List.mem_cons.mp hh2 with rfl | hh2
        · exact not_lt.mp hlt
        · exact hall h2 hh2
      · intro hall h2 hh2
        exact hall h2 (List.mem_cons_of_mem _ hh2)

/-- Decomposition of the fold result when it starts from a selected head
`h0` at its own distance: the final head is the first one attaining the
minimum distance (strictly better than everything before it, no worse
than everything after it). -/
theorem nearestFold_some_spec (pos : ℕ → Pt) (i : ℕ) :
    ∀ (t : List ℕ) (h0 hres : ℕ),
      (t.foldl (nearestStep pos i)
        (sqDist (pos i) (pos h0), some h0)).2 = some hres →
      ∃ l1 l2, h0 :: t = l1 ++ hres :: l2 ∧
        (l1 = [] → hres = h0) ∧
        (l1 ≠ [] →
          sqDist (pos i) (pos hres) < sqDist (pos i) (pos h0)) ∧
        (∀ x ∈ l1, sqDist (pos i) (pos hres) < sqDist (pos i) (pos x)) ∧
        (∀ x ∈ l2, sqDist (pos i) (pos hres) ≤ sqDist (pos i) (pos x)) := by
  intro t
  induction t with
  | nil =>
    intro h0 hres h
    simp only [List.foldl_nil, Option.some.injEq] at h
    subst h
    exact ⟨[], [], rfl, fun _ => rfl, fun hcon => absurd rfl hcon,
      by simp, by simp⟩
  | cons x t ih =>
    intro h0 hres h
    rw [List.foldl_cons] at h
    by_cases hlt : sqDist (pos i) (pos x) < sqDist (pos i) (pos h0)
    · rw [show nearestStep pos i (sqDist (pos i) (pos h0), some h0) x =
          (sqDist (pos i) (pos x), some x) by
        simp [nearestStep, hlt]] at h
      obtain ⟨l1, l2, heq, hnil, hlt2, hall1, hall2⟩ := ih x hres h
      have hkey : sqDist (pos i) (pos hres) < sqDist (pos i) (pos h0) := by
        rcases eq_or_ne l1 [] with rfl | hne
        · rw [hnil rfl]
          exact hlt
        · exact lt_trans (hlt2 hne) hlt
      refine ⟨h0 :: l1, l2, by rw [List.cons_append, ← heq],
        fun hcon => absurd hcon (List.cons_ne_nil _ _), fun _ => hkey,
        ?_, hall2⟩
      intro y hy
      rcases List.mem_cons.mp hy with rfl | hy2
      · exact hkey
      · exact hall1 y hy2
    · rw [show nearestStep pos i (sqDist (pos i) (pos h0), some h0) x =
          (sqDist (pos i) (pos h0), some h0) by
        simp [nearestStep, hlt]] at h
      obtain ⟨l1, l2, heq, hnil, hlt2, hall1, hall2⟩ := ih h0 hres h
      cases l1 with
      | nil =>
        simp only [List.nil_append, List.cons.injEq] at heq
        obtain ⟨hh0, hl2⟩ := heq
        refine ⟨[], x :: t, ?_, fun _ => hh0.symm ▸ rfl,
          fun hcon => absurd rfl hcon, by simp, ?_⟩
        · simp [hh0]
        · intro y hy
          rcases List.mem_cons.mp hy with rfl | hy2
          · rw [← hh0]
            exact not_lt.mp hlt
          · rw [hl2] at hy2
            exact hall2 y hy2
      | cons a l1b =>
        simp only [List.cons_append, List.cons.injEq] at heq
        obtain ⟨hh0, ht⟩ := heq
        subst hh0
        have hstrict := hlt2 (List.cons_ne_nil _ _)
        refine ⟨h0 :: x :: l1b, l2, by rw [ht]; rfl,
          fun hcon => absurd hcon (List.cons_ne_nil _ _),
          fun _ => hstrict, ?_, hall2⟩
        intro y hy
        rcases List.mem_cons.mp hy with rfl | hy2
        · exact hstrict
        · rcases List.mem_cons.mp hy2 with rfl | hy3
          · exact lt_of_lt_of_le hstrict (not_lt.mp hlt)
          · exact hall1 y (List.mem_cons_of_mem _ hy3)

/-- Decomposition of a successful `assignHead` fold from the initial
`none` state: the selected head beats the distance-from-earth bound, is
strictly closer than every head before it and at least as close as every
head after it. -/
theorem nearestFold_from_none (pos : ℕ → Pt) (i : ℕ) :
    ∀ (l : List ℕ) (b : ℚ) (hres : ℕ),
      (l.foldl (nearestStep pos i) (b, none)).2 = some hres →
      ∃ l1 l2, l = l1 ++ hres :: l2 ∧ sqDist (pos i) (pos hres) < b ∧
        (∀ x ∈ l1, sqDist (pos i) (pos hres) < sqDist (pos i) (pos x)) ∧
        (∀ x ∈ l2, sqDist (pos i) (pos hres) ≤ sqDist (pos i) (pos x)) := by
  intro l
  induction l with
  | nil =>
    intro b hres h
    simp at h
  | cons x t ih =>
    intro b hres h
    rw [List.foldl_cons] at h
    by_cases hlt : sqDist (pos i) (pos x) < b
    · rw [show nearestStep pos i (b, none) x =
          (sqDist (pos i) (pos x), some x) by simp [nearestStep, hlt]] at h
      obtain ⟨l1, l2, heq, hnil, hlt2, hall1, hall2⟩ :=
        nearestFold_some_spec pos i t x hres h
      have hkey : sqDist (pos i) (pos hres) < b := by
        rcases eq_or_ne l1 [] with rfl | hne
        · rw [hnil rfl]
          exact hlt
        · exact lt_trans (hlt2 hne) hlt
      exact ⟨l1, l2, heq, hkey, hall1, hall2⟩
    · rw [show nearestStep pos i (b, none) x = (b, none) by
        simp [nearestStep, hlt]] at h
      obtain ⟨l1, l2, heq, hb, hall1, hall2⟩ := ih b hres h
      refine ⟨x :: l1, l2, by rw [List.cons_append, ← heq], hb, ?_, hall2⟩
      intro y hy
      rcases List.mem_cons.mp hy with rfl | hy2
      · exact lt_of_lt_of_le hb (not_lt.mp hlt)
      · exact hall1 y hy2

/-
Cluster map characterization (shared by claims C2, C3, C9).
-/


/-- A found cluster has the requested head. -/
theorem clFind_head (cs : List Cluster) (h : ℕ) (c : Cluster)
    (hf : clFind cs h = some c) : c.head = h := by
  have := List.find?_some hf
  simpa using this

/-- Effect of `add_member` on the map lookup: the target cluster gains the
member, every other lookup is unchanged. -/
theorem clFind_addMemberTo (cs : List Cluster) (h2 i h : ℕ) :
    clFind (addMemberTo cs h2 i) h =
      (clFind cs h).map (fun c => if c.head = h2 then c.addMember i else c) := by
  induction cs with
  | nil => rfl
  | cons c cs ih =>
    have hhead : (if c.head = h2 then c.addMember i else c).head = c.head := by
      split_ifs <;> simp [Cluster.addMember]
    by_cases hch : c.head = h
    · unfold clFind addMemberTo
      rw [List.map_cons, List.find?_cons, List.find?_cons]
      rw [show ((if c.head = h2 then c.addMember i else c).head == h) = true by
        rw [hhead]; simp [hch]]
      rw [show (c.head == h) = true by simp [hch]]
      rfl
    · unfold clFind addMemberTo at ih ⊢
      rw [List.map_cons, List.find?_cons, List.find?_cons]
      simp only [hhead]
      rw [show (c.head == h) = false by simp [hch]]
      exact ih

/-- Lookup in the freshly created cluster list: every head is mapped to
its seeded singleton cluster. -/
theorem clFind_init (prevColor : ℕ → Option ℚ) (hue : ℕ → ℚ) :
    ∀ (heads : List ℕ) (h : ℕ), h ∈ heads →
      clFind (heads.map (mkCluster prevColor hue)) h =
        some (mkCluster prevColor hue h) := by
  intro heads
  induction heads with
  | nil => intro h hh; exact absurd hh (by simp)
  | cons a t ih =>
    intro h hh
    by_cases hah : a = h
    · subst hah
      unfold clFind
      rw [List.map_cons, List.find?_cons]
      simp [mkCluster]
    · unfold clFind at ih ⊢
      rw [List.map_cons, List.find?_cons]
      rw [show ((mkCluster prevColor hue a).head == h) = false by
        simp [mkCluster, hah]]
      exact ih h (by
        rcases List.mem_cons.mp hh with rfl | hh2
        · exact absurd rfl hah
        · exact hh2)

/-- Characterization of the membership loop: folding the per-agent
assignment over any agent list extends each cluster's member list by
exactly the non-head agents of that list assigned to its head, in order,
and bumps the size accordingly; head and color are untouched. -/
theorem assignFold_members (pos : ℕ → Pt) (heads : List ℕ) :
    ∀ (l : List ℕ) (cs : List Cluster) (h : ℕ) (c0 : Cluster),
      clFind cs h = some c0 →
      clFind (l.foldl (assignStep pos heads) cs) h =
        some { c0 with
               members := c0.members ++ l.filter (fun j =>
                 !(heads.contains j) && (assignHead pos heads j == some h))
               size := c0.size + (l.filter (fun j =>
                 !(heads.contains j) &&
                   (assignHead pos heads j == some h))).length } := by
  intro l
  induction l with
  | nil =>
    intro cs h c0 hf
    simpa using hf
  | cons j t ih =>
    intro cs h c0 hf
    rw [List.foldl_cons]
    by_cases hj : heads.contains j = true
    · have hjm : j ∈ heads := by simpa using hj
      rw [show assignStep pos heads cs j = cs by
        unfold assignStep
        rw [if_pos hj]]
      rw [List.filter_cons_of_neg (by simp [hjm])]
      exact ih cs h c0 hf
    · cases hassign : assignHead pos heads j with
      | none =>
        rw [show assignStep pos heads cs j = cs by
          unfold assignStep
          rw [if_neg hj, hassign]]
        rw [List.filter_cons_of_neg (by simp [hassign])]
        exact ih cs h c0 hf
      | some h2 =>
        rw [show assignStep pos heads cs j = addMemberTo cs h2 j by
          unfold assignStep
          rw [if_neg hj, hassign]]
        by_cases hh2 : h2 = h
        · subst hh2
          have hjm : ¬ j ∈ heads := by
            intro hmem
            exact hj (by simpa using hmem)
          have hc0head : c0.head = h2 := clFind_head cs h2 c0 hf
          have hfind2 : clFind (addMemberTo cs h2 j) h2 =
              some (c0.addMember j) := by
            rw [clFind_addMemberTo, hf]
            simp [hc0head]
          rw [ih _ h2 (c0.addMember j) hfind2]
          rw [List.filter_cons_of_pos (by simp [hjm, hassign])]
          simp only [Cluster.addMember, Option.some.injEq, Cluster.mk.injEq]
          refine ⟨by trivial, ?_, ?_, by trivial⟩
          · simp [List.append_assoc]
          · simp
            omega
        · have hfind2 : clFind (addMemberTo cs h2 j) h = some c0 := by
            rw [clFind_addMemberTo, hf]
            have hc0head : c0.head = h := clFind_head cs h c0 hf
            have hne : ¬ (c0.head = h2) := by
              rw [hc0head]
              exact fun he => hh2 he.symm
            simp [hne]
          rw [ih _ h c0 hfind2]
          rw [List.filter_cons_of_neg (by simp [hassign, hh2])]


/-- Claim C2, counterexample: the claim is false as stated.  In the
two-agent scenario agent 1 is elected head, yet the non-head agent 0 is
assigned to no cluster at all, because the membership loop initializes
`nearest_distance` with the agent's `distance_from_earth` (here 0) and
only accepts heads strictly closer than that: an agent whose heads are
all at least as far as its own distance from the screen center remains
unclustered even though heads exist. -/
theorem c2_membership_counterexample :
    electHeads 2 posW2 energyW2 settingsW = [1] ∧
    assignHead posW2 (electHeads 2 posW2 energyW2 settingsW) 0 = none ∧
    ∀ c ∈ assignMembers 2 posW2 (electHeads 2 posW2 energyW2 settingsW)
      (fun _ => none) hueW2, 0 ∉ c.members := by
  decide

/-- Claim C2, amended: on a comms tick every non-head agent is assigned
to the cluster of its nearest elected head among the heads strictly
closer to the agent than the agent's own distance from the screen center
(`distance_from_earth`), ties broken by head iteration order (the first
head attaining the minimum wins); the agent remains unclustered exactly
when no head is strictly closer than that bound — in particular whenever
no heads exist, but possibly also with heads present.  Stated on squared
distances, which order exactly as the source's float magnitudes. -/
theorem c2_membership_amended (n : ℕ) (pos : ℕ → Pt) (heads : List ℕ)
    (prevColor : ℕ → Option ℚ) (hue : ℕ → ℚ) (i : ℕ) :
    (assignHead pos heads i = none ↔
      ∀ h ∈ heads, sqDistFromEarth (pos i) ≤ sqDist (pos i) (pos h)) ∧
    (∀ h, assignHead pos heads i = some h →
      sqDist (pos i) (pos h) < sqDistFromEarth (pos i) ∧
      ∃ l1 l2, heads = l1 ++ h :: l2 ∧
        (∀ x ∈ l1, sqDist (pos i) (pos h) < sqDist (pos i) (pos x)) ∧
        (∀ x ∈ l2, sqDist (pos i) (pos h) ≤ sqDist (pos i) (pos x))) ∧
    (i < n → heads.contains i = false → ∀ h ∈ heads,
      ∀ c, clFind (assignMembers n pos heads prevColor hue) h = some c →
        (i ∈ c.members ↔ assignHead pos heads i = some h)) := by
  refine ⟨?_, ?_, ?_⟩
  · rw [assignHead_eq_fold]
    exact nearestFold_none_iff pos i heads (sqDistFromEarth (pos i))
  · intro h hsome
    rw [assignHead_eq_fold] at hsome
    obtain ⟨l1, l2, heq, hb, hall1, hall2⟩ :=
      nearestFold_from_none pos i heads (sqDistFromEarth (pos i)) h hsome
    exact ⟨hb, l1, l2, heq, hall1, hall2⟩
  · intro hin hnh h hh c hfound
    have hinit := clFind_init prevColor hue heads h hh
    have hchar := assignFold_members pos heads (List.range n)
      (heads.map (mkCluster prevColor hue)) h _ hinit
    rw [show assignMembers n pos heads prevColor hue =
      (List.range n).foldl (assignStep pos heads)
        (heads.map (mkCluster prevColor hue)) from rfl, hchar] at hfound
    obtain rfl := Option.some.inj hfound
    have hih : i ≠ h := by
      intro he
      subst he
      have : i ∉ heads := by simpa using hnh
      exact this hh
    constructor
    · intro hmem
      simp only [mkCluster] at hmem
      rcases List.mem_append.mp hmem with hmem2 | hmem2
      · exact absurd (List.mem_singleton.mp hmem2) hih
      · have hpred := (List.mem_filter.mp hmem2).2
        simp only [Bool.and_eq_true, beq_iff_eq] at hpred
        exact hpred.2
    · intro has
      simp only [mkCluster]
      refine List.mem_append.mpr (Or.inr ?_)
      refine List.mem_filter.mpr ⟨List.mem_range.mpr hin, ?_⟩
      simp only [Bool.and_eq_true, beq_iff_eq]
      refine ⟨by simpa using hnh, has⟩

/-- List-level characterization of the membership loop: every cluster in
the list is extended by exactly the non-head agents assigned to its own
head, in id order; heads and colors are untouched. -/
theorem assignFold_map (pos : ℕ → Pt) (heads : List ℕ) :
    ∀ (l : List ℕ) (cs : List Cluster),
      l.foldl (assignStep pos heads) cs =
        cs.map (fun c =>
          { c with
            members := c.members ++ l.filter (fun j =>
              !(heads.contains j) && (assignHead pos heads j == some c.head))
            size := c.size + (l.filter (fun j =>
              !(heads.contains j) &&
                (assignHead pos heads j == some c.head))).length }) := by
  intro l
  induction l with
  | nil =>
    intro cs
    simp
  | cons j t ih =>
    intro cs
    rw [List.foldl_cons]
    by_cases hj : heads.contains j = true
    · have hjm : j ∈ heads := by simpa using hj
      rw [show assignStep pos heads cs j = cs by
        unfold assignStep
        rw [if_pos hj]]
      rw [ih cs]
      refine List.map_congr_left ?_
      intro c _
      rw [List.filter_cons_of_neg (by simp [hjm])]
    · cases hassign : assignHead pos heads j with
      | none =>
        rw [show assignStep pos heads cs j = cs by
          unfold assignStep
          rw [if_neg hj, hassign]]
        rw [ih cs]
        refine List.map_congr_left ?_
        intro c _
        rw [List.filter_cons_of_neg (by simp [hassign])]
      | some h2 =>
        have hjm : ¬ j ∈ heads := by
          intro hmem
          exact hj (by simpa using hmem)
        rw [show assignStep pos heads cs j = addMemberTo cs h2 j by
          unfold assignStep
          rw [if_neg hj, hassign]]
        rw [ih _]
        unfold addMemberTo
        rw [List.map_map]
        refine List.map_congr_left ?_
        intro c _
        by_cases hch : c.head = h2
        · have : (if c.head = h2 then c.addMember j else c) = c.addMember j :=
            if_pos hch
          simp only [Function.comp_apply, this]
          rw [List.filter_cons_of_pos (by
            simp only [Cluster.addMember, hassign, Bool.and_eq_true,
              beq_iff_eq, Option.some.injEq]
            exact ⟨by simpa using hjm, hch.symm⟩)]
          simp only [Cluster.addMember, Cluster.mk.injEq]
          refine ⟨by trivial, ?_, ?_, by trivial⟩
          · simp [List.append_assoc]
          · simp
            omega
        · have : (if c.head = h2 then c.addMember j else c) = c := if_neg hch
          simp only [Function.comp_apply, this]
          rw [List.filter_cons_of_neg (by
            simp only [hassign, Bool.and_eq_true, beq_iff_eq,
              Option.some.injEq]
            intro hcon
            exact hch hcon.2.symm)]

/-- Clusters produced by the membership loop over elected (duplicate-free)
heads have pairwise disjoint member lists. -/
theorem assignMembers_disjoint (n : ℕ) (pos : ℕ → Pt) (heads : List ℕ)
    (prevColor : ℕ → Option ℚ) (hue : ℕ → ℚ) (hnd : heads.Nodup) :
    (assignMembers n pos heads prevColor hue).Pairwise
      (fun c1 c2 => ∀ i ∈ c1.members, i ∉ c2.members) := by
  unfold assignMembers
  rw [assignFold_map, List.map_map, List.pairwise_map]
  have hpairs : heads.Pairwise (fun a b => a ∈ heads ∧ b ∈ heads ∧ a ≠ b) := by
    refine List.Pairwise.imp_of_mem ?_ hnd
    intro a b ha hb hne
    exact ⟨ha, hb, hne⟩
  refine List.Pairwise.imp ?_ hpairs
  intro a b hab
  obtain ⟨ha, hb, hne⟩ := hab
  intro i hi hib
  simp only [Function.comp_apply, mkCluster] at hi hib
  rcases List.mem_append.mp hi with hi2 | hi2
  · have hia : i = a := by simpa using hi2
    subst hia
    rcases List.mem_append.mp hib with hib2 | hib2
    · exact hne (by simpa using hib2)
    · have hpred := (List.mem_filter.mp hib2).2
      simp only [Bool.and_eq_true, Bool.not_eq_true'] at hpred
      have : ¬ i ∈ heads := by simpa using hpred.1
      exact this ha
  · have hpred := (List.mem_filter.mp hi2).2
    simp only [Bool.and_eq_true, beq_iff_eq, Bool.not_eq_true'] at hpred
    rcases List.mem_append.mp hib with hib2 | hib2
    · have hibb : i = b := by simpa using hib2
      subst hibb
      have : ¬ i ∈ heads := by simpa using hpred.1
      exact this hb
    · have hpred2 := (List.mem_filter.mp hib2).2
      simp only [Bool.and_eq_true, beq_iff_eq] at hpred2
      have heq : (some a : Option ℕ) = some b := by
        rw [← hpred.2, ← hpred2.2]
      exact hne (Option.some.inj heq)

/-- Agents belonging to no cluster of the list keep their hue through the
blending loop. -/
theorem blendFold_untouched :
    ∀ (cs : List Cluster) (hu : ℕ → ℚ) (i : ℕ),
      (∀ c ∈ cs, i ∉ c.members) → (blendFold cs hu).2 i = hu i := by
  intro cs
  induction cs with
  | nil => intro hu i _; rfl
  | cons c rest ih =>
    intro hu i h
    have hc : i ∉ c.members := h c (by simp)
    have hrest : ∀ c2 ∈ rest, i ∉ c2.members :=
      fun c2 hc2 => h c2 (List.mem_cons_of_mem _ hc2)
    by_cases hsz : c.size < 2
    · simp only [blendFold]
      rw [if_pos hsz]
      exact ih hu i hrest
    · simp only [blendFold]
      rw [if_neg hsz]
      dsimp only
      rw [ih _ i hrest]
      simp [hc]

/-- Formula computed by the blending loop for every cluster of size at
least 2, provided the clusters' member lists are pairwise disjoint (as
they are for an elected `ClusterMap`): each member's final hue is the
average of the member hues (head included, read before any blending),
blended 50/50 with the cluster's color and reduced modulo 360. -/
theorem blendFold_formula :
    ∀ (cs : List Cluster) (hu : ℕ → ℚ),
      cs.Pairwise (fun c1 c2 => ∀ i ∈ c1.members, i ∉ c2.members) →
      ∀ c ∈ cs, 2 ≤ c.size → ∀ i ∈ c.members,
        (blendFold cs hu).2 i =
          fmod ((c.color + (c.members.map hu).sum / (c.members.length : ℚ)) / 2)
            360 := by
  intro cs
  induction cs with
  | nil =>
    intro hu _ c hc
    exact absurd hc (by simp)
  | cons c0 rest ih =>
    intro hu hpw c hc hsz i hi
    have hpw2 := List.pairwise_cons.mp hpw
    rcases List.mem_cons.mp hc with rfl | hcr
    · have hsz2 : ¬ c.size < 2 := by omega
      simp only [blendFold]
      rw [if_neg hsz2]
      dsimp only
      have huntouched : ∀ c2 ∈ rest, i ∉ c2.members :=
        fun c2 hc2 => hpw2.1 c2 hc2 i hi
      rw [blendFold_untouched rest _ i huntouched]
      simp [hi]
    · by_cases hsz0 : c0.size < 2
      · simp only [blendFold]
        rw [if_pos hsz0]
        exact ih hu hpw2.2 c hcr hsz i hi
      · simp only [blendFold]
        rw [if_neg hsz0]
        dsimp only
        rw [ih _ hpw2.2 c hcr hsz i hi]
        have hmap : c.members.map (fun j =>
            if c0.members.contains j then
              fmod ((c0.color + (c0.members.map hu).sum /
                (c0.members.length : ℚ)) / 2) 360
            else hu j) = c.members.map hu := by
          refine List.map_congr_left ?_
          intro j hj
          have hj0 : j ∉ c0.members := by
            intro hj2
            exact hpw2.1 c hcr j hj2 hj
          simp [hj0]
        rw [hmap]


/-- Claim C2, witness for the amended theorem: in the three-agent
scenario with the single head 0, agent 1 is a member of head 0's cluster
if and only if it is assigned to it, and its assignment picks head 0,
which is strictly closer than agent 1's distance from the screen
center. -/
theorem c2_membership_amended_witness :
    ((1 : ℕ) ∈ (⟨0, [0, 1, 2], 3, 100⟩ : Cluster).members ↔
      assignHead posW9 [0] 1 = some 0) ∧
    (sqDist (posW9 1) (posW9 0) < sqDistFromEarth (posW9 1) ∧
      ∃ l1 l2, ([0] : List ℕ) = l1 ++ 0 :: l2 ∧
        (∀ x ∈ l1, sqDist (posW9 1) (posW9 0) < sqDist (posW9 1) (posW9 x)) ∧
        (∀ x ∈ l2, sqDist (posW9 1) (posW9 0) ≤ sqDist (posW9 1) (posW9 x))) :=
  ⟨(c2_membership_amended 3 posW9 [0] (fun _ => none) hueW9 1).2.2 (by decide)
      (by decide) 0 (by decide) ⟨0, [0, 1, 2], 3, 100⟩ (by decide),
   (c2_membership_amended 3 posW9 [0] (fun _ => none) hueW9 1).2.1 0
      (by decide)⟩

/-- Claim C3, counterexample: the claim is false as stated.  With a
single agent above the threshold, the comms tick elects head 0 and builds
the cluster `⟨head 0, members [0], size 1⟩`: `Cluster::new` places the
head itself into the member list (so a head id does appear in a member
list, namely its own cluster's), and `size` equals the member count, not
`1 + member count`. -/
theorem c3_cluster_structure_counterexample :
    clFind (assignMembers 1 (fun _ => ⟨600, 500⟩)
        (electHeads 1 (fun _ => ⟨600, 500⟩) (fun _ => 60) settingsW)
        (fun _ => none) (fun _ => 40)) 0 = some ⟨0, [0], 1, 40⟩ ∧
    (0 : ℕ) ∈ ([0] : List ℕ) ∧
    ¬ ((1 : ℕ) = 1 + ([0] : List ℕ).length) := by
  decide

/-- Claim C3, amended: for every ClusterMap produced by a comms tick,
each elected head's cluster consists of the head itself as first member
followed by its assigned followers, `size = member count = 1 + follower
count` (the head is included in the member list and counted), and no
agent id appears as a member of two different clusters — cluster member
lists are pairwise disjoint, with each head occurring only in its own
cluster's member list. -/
theorem c3_cluster_structure_amended (n : ℕ) (pos : ℕ → Pt)
    (energy : ℕ → ℚ) (s : Settings) (prevColor : ℕ → Option ℚ)
    (hue : ℕ → ℚ) :
    ∀ h ∈ electHeads n pos energy s,
      ∃ c, clFind (assignMembers n pos (electHeads n pos energy s)
          prevColor hue) h = some c ∧
        c.head = h ∧
        (∃ followers, c.members = h :: followers ∧
          c.size = 1 + followers.length) ∧
        c.size = c.members.length ∧
        (∀ h2 ∈ electHeads n pos energy s, h2 ≠ h → ∀ c2,
          clFind (assignMembers n pos (electHeads n pos energy s)
            prevColor hue) h2 = some c2 →
          ∀ i ∈ c.members, i ∉ c2.members) := by
  intro h hh
  have hchar := assignFold_members pos (electHeads n pos energy s)
    (List.range n) _ h _ (clFind_init prevColor hue _ h hh)
  rw [show assignMembers n pos (electHeads n pos energy s) prevColor hue =
    (List.range n).foldl (assignStep pos (electHeads n pos energy s))
      ((electHeads n pos energy s).map (mkCluster prevColor hue)) from rfl]
  refine ⟨_, hchar, by trivial, ?_, ?_, ?_⟩
  · refine ⟨(List.range n).filter (fun j =>
      !((electHeads n pos energy s).contains j) &&
        (assignHead pos (electHeads n pos energy s) j == some h)), ?_, ?_⟩
    · simp [mkCluster]
    · simp only [mkCluster]
  · simp only [mkCluster, List.singleton_append, List.length_cons]
    omega
  · intro h2 hh2 hne c2 hfound2 i hi
    have hchar2 := assignFold_members pos (electHeads n pos energy s)
      (List.range n) _ h2 _ (clFind_init prevColor hue _ h2 hh2)
    rw [hchar2] at hfound2
    obtain rfl := Option.some.inj hfound2
    simp only [mkCluster] at hi ⊢
    intro hib
    rcases List.mem_append.mp hi with hi2 | hi2
    · have hih : i = h := by simpa using hi2
      subst hih
      rcases List.mem_append.mp hib with hib2 | hib2
      · have hih2 : i = h2 := by simpa using hib2
        exact hne hih2.symm
      · have hpred := (List.mem_filter.mp hib2).2
        simp only [Bool.and_eq_true, Bool.not_eq_true'] at hpred
        have : ¬ i ∈ electHeads n pos energy s := by simpa using hpred.1
        exact this hh
    · have hpred := (List.mem_filter.mp hi2).2
      simp only [Bool.and_eq_true, beq_iff_eq, Bool.not_eq_true'] at hpred
      rcases List.mem_append.mp hib with hib2 | hib2
      · have hih2 : i = h2 := by simpa using hib2
        subst hih2
        have : ¬ i ∈ electHeads n pos energy s := by simpa using hpred.1
        exact this hh2
      · have hpred2 := (List.mem_filter.mp hib2).2
        simp only [Bool.and_eq_true, beq_iff_eq] at hpred2
        have heq : (some h : Option ℕ) = some h2 := by
          rw [← hpred.2, ← hpred2.2]
        exact hne (Option.some.inj heq).symm

/-- Claim C3, witness: the amended structure at the three-agent scenario
(head 0 with followers 1 and 2). -/
theorem c3_cluster_structure_amended_witness :
    ∃ c, clFind (assignMembers 3 posW9 (electHeads 3 posW9 energyW9 settingsW)
        (fun _ => none) hueW9) 0 = some c ∧
      c.head = 0 ∧
      (∃ followers, c.members = 0 :: followers ∧
        c.size = 1 + followers.length) ∧
      c.size = c.members.length ∧
      (∀ h2 ∈ electHeads 3 posW9 energyW9 settingsW, h2 ≠ 0 → ∀ c2,
        clFind (assignMembers 3 posW9 (electHeads 3 posW9 energyW9 settingsW)
          (fun _ => none) hueW9) h2 = some c2 →
        ∀ i ∈ c.members, i ∉ c2.members) :=
  c3_cluster_structure_amended 3 posW9 energyW9 settingsW (fun _ => none)
    hueW9 0 (by decide)

/-- Claim C9, counterexample: the claim is false as stated.  In the
three-agent scenario (head 0 seeded with its own hue 100, followers with
hues 200 and 300) the code's final hue of agent 1 is 150, because the
averaged member list contains the head itself (mean of 100, 200, 300 is
200, blended with the seed 100 gives 150); the claim's value — mean of
the members excluding the head (250), blended with the seed — is 175. -/
theorem c9_hue_blending_counterexample :
    ((commsTickClusters 3 posW9 energyW9 hueW9 settingsW (fun _ => none)).2) 1
      = 150 ∧
    fmod ((seedColor (fun _ => none) hueW9 0 + (hueW9 1 + hueW9 2) / 2) / 2)
      360 = 175 ∧
    (150 : ℚ) ≠ 175 := by
  decide

/-- Claim C9, amended: on a comms tick each new cluster's color is seeded
from the previous tick's cluster with the same head id when one existed,
else from the head's own hue; and for every cluster of size at least 2
the final hue written to the head's and every member's displayed hue is
the arithmetic mean of the hues of the cluster's member list — which
contains the head itself, whose hue equals the seeded cluster color at
that point — blended 50/50 with the cluster's seeded color and reduced
modulo 360. -/
theorem c9_hue_blending_amended (n : ℕ) (pos : ℕ → Pt) (energy : ℕ → ℚ)
    (hue : ℕ → ℚ) (s : Settings) (prevColor : ℕ → Option ℚ) :
    (∀ h ∈ electHeads n pos energy s, ∀ c,
      clFind (assignMembers n pos (electHeads n pos energy s) prevColor hue)
        h = some c →
      c.color = seedColor prevColor hue h) ∧
    (∀ c ∈ assignMembers n pos (electHeads n pos energy s) prevColor hue,
      2 ≤ c.size → ∀ i ∈ c.members,
      (commsTickClusters n pos energy hue s prevColor).2 i =
        fmod ((c.color + (c.members.map
          (hueAfterSeeding (electHeads n pos energy s) prevColor hue)).sum /
          (c.members.length : ℚ)) / 2) 360) := by
  constructor
  · intro h hh c hfound
    have hchar := assignFold_members pos (electHeads n pos energy s)
      (List.range n) _ h _ (clFind_init prevColor hue _ h hh)
    rw [show assignMembers n pos (electHeads n pos energy s) prevColor hue =
      (List.range n).foldl (assignStep pos (electHeads n pos energy s))
        ((electHeads n pos energy s).map (mkCluster prevColor hue)) from rfl,
      hchar] at hfound
    obtain rfl := Option.some.inj hfound
    rfl
  · intro c hc hsz i hi
    exact blendFold_formula
      (assignMembers n pos (electHeads n pos energy s) prevColor hue)
      (hueAfterSeeding (electHeads n pos energy s) prevColor hue)
      (assignMembers_disjoint n pos (electHeads n pos energy s) prevColor hue
        (electHeads_nodup n pos energy s))
      c hc hsz i hi

/-- Claim C9, witness: the amended formula at the three-agent scenario —
the cluster color is the seed 100 (no previous map, head hue 100) and
agent 1's final hue matches the head-inclusive blend. -/
theorem c9_hue_blending_amended_witness :
    ((⟨0, [0, 1, 2], 3, 100⟩ : Cluster).color =
      seedColor (fun _ => none) hueW9 0) ∧
    ((commsTickClusters 3 posW9 energyW9 hueW9 settingsW (fun _ => none)).2 1 =
      fmod ((100 + (([0, 1, 2] : List ℕ).map
        (hueAfterSeeding (electHeads 3 posW9 energyW9 settingsW)
          (fun _ => none) hueW9)).sum / ((3 : ℕ) : ℚ)) / 2) 360) :=
  ⟨(c9_hue_blending_amended 3 posW9 energyW9 hueW9 settingsW
      (fun _ => none)).1 0 (by decide) ⟨0, [0, 1, 2], 3, 100⟩ (by decide),
   (c9_hue_blending_amended 3 posW9 energyW9 hueW9 settingsW
      (fun _ => none)).2 ⟨0, [0, 1, 2], 3, 100⟩ (by decide) (by decide) 1
      (by decide)⟩
